import Mathlib

/-!
Verification of the eon parsing/formatting core (crates `eon_syntax` and `eon`)
against its natural-language specification.

The Lean definitions below are a shallow embedding of the Rust sources:

* `src/crates/eon_syntax/src/strings.rs`    (string escaping / quoting)
* `src/crates/eon/src/value/number.rs`      (the `Number` model)
* `src/crates/eon_syntax/src/token_kind.rs` (the tokenizer, a `logos` lexer)
* `src/crates/eon_syntax/src/parse.rs`      (the recursive-descent parser)
* `src/crates/eon_syntax/src/format.rs`     (the formatter)
* `src/crates/eon_syntax/src/lib.rs`        (`reformat`)

Machine integers (`u128`/`i128`/`u32`) are modelled as `Nat`/`Int` with
explicit range checks exactly where the Rust code has them.  IEEE floats are
modelled as exact rationals plus the three special values `inf`, `-inf` and
`nan`; every concrete float literal appearing in a theorem below is exactly
representable in the corresponding IEEE format, so the exact-rational model
agrees with the Rust semantics at each point where a theorem evaluates it.

Recursive procedures of the Rust code whose termination is not structural are
given a fuel parameter; the entry points supply fuel that is provably
sufficient, so the fuel-exhaustion branch is unreachable there.
-/

namespace Eon

/-- Decidable equality for `Except`, used to state concrete evaluations of
the fallible operations of the model. -/
instance {ε α : Type} [DecidableEq ε] [DecidableEq α] :
    DecidableEq (Except ε α) := fun a b =>
  match a, b with
  | .ok x, .ok y =>
    match decEq x y with
    | isTrue h => isTrue (by rw [h])
    | isFalse h => isFalse (by simp [h])
  | .error x, .error y =>
    match decEq x y with
    | isTrue h => isTrue (by rw [h])
    | isFalse h => isFalse (by simp [h])
  | .ok _, .error _ => isFalse (by simp)
  | .error _, .ok _ => isFalse (by simp)

/-- The single-quote character, used to build string literals of the model. -/
def sq : Char := '\''

/-- The backtick character. -/
def btick : Char := Char.ofNat 96

/-- The open-brace character. -/
def braceO : Char := '\x7b'

/-- The close-brace character. -/
def braceC : Char := '\x7d'

/-- Modelled from the spec: byte range of something in the source code
(`span.rs` of `eon_syntax` is absent from the sources; this matches the
`con_syntax` iteration and the spec: a half-open range with a union
operation taking min start and max end).  Offsets here count `Char`s of the
source where Rust counts bytes; the two agree on ASCII sources and no
theorem below depends on the distinction. -/
structure Span where
  start : Nat
  stop : Nat
deriving DecidableEq, Repr

/-- Union of two spans: min start, max end (`impl BitOr for Span`). -/
def Span.union (a b : Span) : Span :=
  ⟨min a.start b.start, max a.stop b.stop⟩

/-- Modelled from the spec: the parse error type (`error.rs` of `eon_syntax`
is absent from the sources; this matches the `con_syntax` iteration and the
spec).  `Error::Custom` carries only a message; `Error::At` also carries the
span.  The `At` variant of the Rust code additionally stores a copy of the
source text, which is used only for diagnostic rendering and is dropped
here. -/
structure Error where
  message : String
  span : Option Span
deriving DecidableEq, Repr

/-- Constructor `Error::new_at` (the source-text argument is dropped, see
`Error`). -/
def Error.new_at (span : Span) (message : String) : Error :=
  ⟨message, some span⟩

/-- Constructor `Error::custom`. -/
def Error.custom (message : String) : Error :=
  ⟨message, none⟩

/-! ## The string escape/quote module (`strings.rs`) -/

/-- Rust `char::is_control`: the Unicode `Cc` category, which is exactly
U+0000..U+001F and U+007F..U+009F. -/
def isRustControl (c : Char) : Bool :=
  c.toNat < 0x20 || (0x7f ≤ c.toNat && c.toNat ≤ 0x9f)

/-- Rust `char::is_whitespace`: the Unicode `White_Space` property. -/
def isRustWhitespace (c : Char) : Bool :=
  c.toNat ∈ [0x09, 0x0A, 0x0B, 0x0C, 0x0D, 0x20, 0x85, 0xA0, 0x1680,
    0x2000, 0x2001, 0x2002, 0x2003, 0x2004, 0x2005, 0x2006, 0x2007,
    0x2008, 0x2009, 0x200A, 0x2028, 0x2029, 0x202F, 0x205F, 0x3000]

/-- Hexadecimal digit character, lowercase (for Rust `\u` escapes). -/
def hexDigitChar (n : Nat) : Char :=
  if n < 10 then Char.ofNat (48 + n) else Char.ofNat (87 + n)

/-- Hexadecimal digit character, uppercase (for Rust `{:0X}` formatting). -/
def hexDigitCharUpper (n : Nat) : Char :=
  if n < 10 then Char.ofNat (48 + n) else Char.ofNat (55 + n)

/-- Hex digits of `n` (most significant first), via the given digit map.
The fuel bounds the number of digits; 8 suffices for every `u32`. -/
def toHexAux (digit : Nat → Char) : Nat → Nat → List Char → List Char
  | 0, _, acc => acc
  | fuel + 1, n, acc =>
    if n < 16 then digit n :: acc
    else toHexAux digit fuel (n / 16) (digit (n % 16) :: acc)

/-- Lowercase hex rendering of `n` (as in Rust `\u` escape output). -/
def toHexLower (n : Nat) : List Char := toHexAux hexDigitChar 8 n []

/-- Uppercase hex rendering of `n` (Rust `format!("{:0X}", n)`). -/
def toHexUpper (n : Nat) : List Char := toHexAux hexDigitCharUpper 8 n []

/-- Rust `char::escape_debug` as used by `Debug for str` (the
`doubel_quote` helper formats with `{raw:?}`).  The named escapes are
position-independent; which remaining characters are kept verbatim as
opposed to `\u`-escaped is decided by Rust from Unicode printability
tables (with a position-dependent refinement for grapheme-extending
characters).  That decision is abstracted here into the `printable`
parameter; the theorems below hold for every choice of it. -/
def escapeDebugChar (printable : Char → Bool) (c : Char) : List Char :=
  if c = '\x00' then ['\\', '0']
  else if c = '\t' then ['\\', 't']
  else if c = '\r' then ['\\', 'r']
  else if c = '\n' then ['\\', 'n']
  else if c = '\\' then ['\\', '\\']
  else if c = '"' then ['\\', '"']
  else if printable c then [c]
  else '\\' :: 'u' :: braceO :: (toHexLower c.toNat ++ [braceC])

/-- Escape a list of characters as `Debug for str` does. -/
def escapeDebugChars (printable : Char → Bool) (cs : List Char) : List Char :=
  cs.foldr (fun c acc => escapeDebugChar printable c ++ acc) []

/-- The `doubel_quote` helper [sic]: `format!("{raw:?}")`, i.e. a
double-quoted Rust-Debug-escaped rendering. -/
def doubel_quote_with (printable : Char → Bool) (raw : String) : String :=
  String.mk ('"' :: (escapeDebugChars printable raw.data ++ ['"']))

/-- The character class of `must_be_double_quoted` in `escape_and_quote`. -/
def mustBeDoubleQuotedChar (c : Char) : Bool :=
  isRustControl c || c = sq || c = '\n' || c = '\r' || c = '\t'

/-- The character class of `would_be_shorter_if_literal` in
`escape_and_quote`. -/
def shorterIfLiteralChar (c : Char) : Bool :=
  isRustControl c || c = '"' || c = '\\'

/-- Function `escape_and_quote` of `strings.rs`, parametrized by the Rust
printability classification (see `escapeDebugChar`). -/
def escape_and_quote_with (printable : Char → Bool) (raw : String) : String :=
  if raw.data.any mustBeDoubleQuotedChar then
    doubel_quote_with printable raw
  else if raw.data.any shorterIfLiteralChar then
    String.mk (sq :: (raw.data ++ [sq]))
  else
    doubel_quote_with printable raw

/-- A concrete stand-in for Rust's printability classification: every
character that is not a control character is kept verbatim.  This is exact
on ASCII; for other planes Rust additionally `\u`-escapes some characters,
which the parametrized theorems below cover by quantifying over the
classification. -/
def rustPrintable (c : Char) : Bool := !isRustControl c

/-- Function `escape_and_quote` of `strings.rs` at the concrete
printability classification. -/
def escape_and_quote (raw : String) : String :=
  escape_and_quote_with rustPrintable raw

/-- Rust `char::to_digit(16)`. -/
def toDigit16 (c : Char) : Option Nat :=
  if '0' ≤ c ∧ c ≤ '9' then some (c.toNat - 48)
  else if 'a' ≤ c ∧ c ≤ 'f' then some (c.toNat - 87)
  else if 'A' ≤ c ∧ c ≤ 'F' then some (c.toNat - 55)
  else none

/-- Rust `char::from_u32`: fails on surrogates and out-of-range values. -/
def charFromU32 (n : Nat) : Option Char :=
  if n < 0x110000 ∧ ¬(0xD800 ≤ n ∧ n ≤ 0xDFFF) then some (Char.ofNat n)
  else none

/-- Error message of `parse_braces_with_unicode` when `\u` is not followed
by an opening brace. -/
def uOpenBraceMsg : String :=
  String.mk ("\\u must be followed by an opening brace, e.g. \\u".data
    ++ braceO :: "1F600".data ++ [braceC])

/-- Error message of `parse_braces_with_unicode` at end of input. -/
def uCloseBraceMsg : String :=
  String.mk ("Unicode escape sequence must end with a closing brace ".data
    ++ sq :: braceC :: [sq])

/-- The digit-collecting loop of `parse_braces_with_unicode`.  `number` is
a `u32` in Rust; the 8-digit limit keeps it below `2^32`, so plain `Nat`
arithmetic is exact. -/
def parseBracesLoop : List Char → Nat → Nat → Except String (Char × List Char)
  | [], _, _ => .error uCloseBraceMsg
  | c :: rest, numChars, number =>
    if c = braceC then
      match charFromU32 number with
      | some ch => .ok (ch, rest)
      | none =>
        .error ("Invalid Unicode code point: " ++ String.mk (toHexUpper number))
    else
      match toDigit16 c with
      | some digit =>
        if 8 ≤ numChars then
          .error ("Unicode escape sequence is too long: "
            ++ String.mk (toHexUpper number) ++ " (max 8 hex digits allowed)")
        else
          parseBracesLoop rest (numChars + 1) (number * 16 + digit)
      | none =>
        if c = '_' then parseBracesLoop rest numChars number
        else .error ("Invalid character in Unicode escape sequence: " ++ c.toString)

/-- Function `parse_braces_with_unicode` of `strings.rs`: parses e.g.
an `1F600`-followed-by-closing-brace sequence into a character, returning
the remaining characters of the iterator. -/
def parse_braces_with_unicode : List Char → Except String (Char × List Char)
  | [] => .error uOpenBraceMsg
  | c :: rest => if c = braceO then parseBracesLoop rest 0 0 else .error uOpenBraceMsg

/-- The `unescape` worker of `strings.rs`, on character lists.  The fuel is
needed only because the escaped-newline case skips a whitespace run; the
wrapper supplies `length + 1`, which is provably sufficient since every
step consumes at least one character. -/
def unescapeF : Nat → List Char → Except String (List Char)
  | 0, _ => .error "out of fuel (unreachable)"
  | _ + 1, [] => .ok []
  | fuel + 1, chr :: rest =>
    if chr = '\\' then
      match rest with
      | [] => .error "String ended with a backslash"
      | c :: rest2 =>
        if c = ' ' then (unescapeF fuel rest2).map (' ' :: ·)
        else if c = '"' then (unescapeF fuel rest2).map ('"' :: ·)
        else if c = '/' then (unescapeF fuel rest2).map ('/' :: ·)
        else if c = sq then (unescapeF fuel rest2).map (sq :: ·)
        else if c = '\\' then (unescapeF fuel rest2).map ('\\' :: ·)
        else if c = btick then (unescapeF fuel rest2).map (btick :: ·)
        else if c = '$' then (unescapeF fuel rest2).map ('$' :: ·)
        else if c = 'a' then (unescapeF fuel rest2).map ('\x07' :: ·)
        else if c = 'b' then (unescapeF fuel rest2).map ('\x08' :: ·)
        else if c = 'e' ∨ c = 'E' then (unescapeF fuel rest2).map ('\x1b' :: ·)
        else if c = 'f' then (unescapeF fuel rest2).map ('\x0c' :: ·)
        else if c = 'n' then (unescapeF fuel rest2).map ('\n' :: ·)
        else if c = 'r' then (unescapeF fuel rest2).map ('\r' :: ·)
        else if c = 't' then (unescapeF fuel rest2).map ('\t' :: ·)
        else if c = 'v' then (unescapeF fuel rest2).map ('\x0b' :: ·)
        else if c = '\n' then
          unescapeF fuel (rest2.dropWhile isRustWhitespace)
        else if c = 'u' then
          match parse_braces_with_unicode rest2 with
          | .ok (ch, rest3) => (unescapeF fuel rest3).map (ch :: ·)
          | .error e => .error e
        else .error ("Unknown escape sequence: \\" ++ c.toString)
    else
      (unescapeF fuel rest).map (chr :: ·)

/-- The `unescape` worker of `strings.rs`. -/
def unescape (cs : List Char) : Except String (List Char) :=
  unescapeF (cs.length + 1) cs

/-- Strip `pat` from the front of `cs`, if present. -/
def dropLead (pat cs : List Char) : Option (List Char) :=
  if pat.isPrefixOf cs then some (cs.drop pat.length) else none

/-- Strip `pat` from the back of `cs`, if present. -/
def dropTail (pat cs : List Char) : Option (List Char) :=
  if pat.isSuffixOf cs then some (cs.take (cs.length - pat.length)) else none

/-- Body of `unescape_and_unquote` on a character list that contains no
carriage return (the wrapper has already removed them). -/
def unquoteChars (cs : List Char) : Except String (List Char) :=
  match dropLead [sq, sq, sq] cs with
  | some suffixPart =>
    match dropTail [sq, sq, sq] suffixPart with
    | none =>
      .error "Triple-quoted multiline literal string must end with three single quotes"
    | some contents =>
      match contents with
      | '\n' :: stripped => .ok stripped
      | _ => .ok contents
  | none =>
  match dropLead [sq] cs with
  | some suffixPart =>
    match dropTail [sq] suffixPart with
    | none => .error "Single-quoted literal string must end with three single quotes"
    | some contents =>
      if contents.contains '\n' then
        .error "Single-quoted literal string may contain newlines"
      else .ok contents
  | none =>
  match dropLead ['"', '"', '"'] cs with
  | some suffixPart =>
    match dropTail ['"', '"', '"'] suffixPart with
    | none => .error "Missing ending of multiline double-quoted string"
    | some contents => unescape contents
  | none =>
  match dropLead ['"'] cs with
  | some suffixPart =>
    match dropTail ['"'] suffixPart with
    | none => .error "Double-quoted string must end with a double quote"
    | some contents =>
      if contents.contains '\n' then
        .error "Double-quoted string may contain newlines"
      else unescape contents
  | none => .error "String must start with a quote (single or double)"

/-- Function `unescape_and_unquote` of `strings.rs`.  The Rust code first
recurses once on `escaped.replace('\r', "")` when a carriage return is
present; replacing-then-recursing is the same as filtering the carriage
returns out up front, which is how it is written here. -/
def unescape_and_unquote (escaped : String) : Except String String :=
  let cs := if escaped.data.contains '\r'
    then escaped.data.filter (· ≠ '\r') else escaped.data
  (unquoteChars cs).map String.mk

/-! ## The number model (`eon/src/value/number.rs`) -/

/-- The value of an IEEE float, modelled exactly: a finite value is an
exact rational (negative zero is identified with zero, which matches IEEE
`==`), plus the two infinities and a single NaN (the format has one
canonical `+nan`). -/
inductive FVal where
  | finite (q : ℚ)
  | inf
  | neginf
  | nan
deriving DecidableEq, Repr

/-- Rust float `==`: NaN is not equal to anything (including itself);
everything else compares by value. -/
def FVal.feq : FVal → FVal → Bool
  | .finite a, .finite b => a = b
  | .inf, .inf => true
  | .neginf, .neginf => true
  | _, _ => false

/-- Rust `f64::is_nan`. -/
def FVal.is_nan : FVal → Bool
  | .nan => true
  | _ => false

/-- Float negation. -/
def FVal.neg : FVal → FVal
  | .finite q => .finite (-q)
  | .inf => .neginf
  | .neginf => .inf
  | .nan => .nan

/-- Bounds of `i128` and `u128`. -/
def i128Min : Int := -(2 ^ 127)

/-- Upper bound of `i128`. -/
def i128Max : Int := 2 ^ 127 - 1

/-- Upper bound of `u128`. -/
def u128Max : Nat := 2 ^ 128 - 1

/-- Rust `f64::round`: round half away from zero, i.e.
`sign(q) * ⌊|q| + 1/2⌋`.  For `0 ≤ q` one has
`⌊q + 1/2⌋ = (2*num + den) fdiv (2*den)` since `q = num/den` with
`den > 0`; the formula below is that computation (it avoids `Rat`
arithmetic, whose normalization the kernel cannot evaluate). -/
def rustRound (q : ℚ) : Int :=
  if 0 ≤ q.num then (2 * q.num + (q.den : Int)).fdiv (2 * (q.den : Int))
  else -((2 * (-q.num) + (q.den : Int)).fdiv (2 * (q.den : Int)))

/-- Saturating clamp used by Rust float-to-integer `as` casts. -/
def satCast (lo hi x : Int) : Int := max lo (min hi x)

/-- The pattern `let i = n.round() as iN; if n == i as fN { Some(i) } else
{ None }` of the narrowing accessors, for a finite float modelled as an
exact rational.  A NaN rounds and casts to `0` but never equals it, and an
infinity saturates to the range bound but never equals it, so both give
`None`.  The comparison `n == i` is expressed as `q.den = 1 ∧ q.num = i`,
which for a normalized rational is exactly `q = (i : ℚ)`.  (The comparison
`n == i as fN` re-rounds `i` to the float format in Rust; on every value a
theorem below evaluates, `i` is exactly representable, so comparing
against the exact rational agrees.) -/
def FVal.toIntCheck (lo hi : Int) : FVal → Option Int
  | .finite q =>
    let i := satCast lo hi (rustRound q)
    if q.den = 1 ∧ q.num = i then some i else none
  | _ => none

/-- The internal representation of `Number` (`enum NumberImpl`).  The
payloads of `I128`/`U128` are kept in range by every operation below, as
in Rust. -/
inductive Number where
  | I128 (n : Int)
  | U128 (n : Nat)
  | F32 (v : FVal)
  | F64 (v : FVal)
deriving DecidableEq, Repr

/-- Fuelled bit-length worker (the fuel only bounds recursion depth). -/
def bitLenAux : Nat → Nat → Nat
  | 0, _ => 0
  | fuel + 1, n => if n = 0 then 0 else bitLenAux fuel (n / 2) + 1

/-- Bit length of `n` (`0` has bit length `0`); fuel 200 covers every
value below `2^200`, far beyond the 128-bit payloads used here. -/
def bitLen (n : Nat) : Nat := bitLenAux 200 n

/-- Is `n` unchanged by a round trip through `f32` (Rust
`n as f32 as i128 == n` and the `u128` analogue)?  `n as f32` rounds to
the nearest `f32` (ties to even); the cast back saturates to the integer
range `lo..=hi` and maps `inf` to `hi`.  The round to `f32` is computed
exactly: for a magnitude of bit-length above 24 the low bits are rounded
away at the ulp `2^(bits-24)`; a result of `2^128` or more is `inf`. -/
def f32IntRoundTrip (lo hi : Int) (n : Int) : Bool :=
  let a := n.natAbs
  let rounded : Option Nat :=
    if a < 2 ^ 24 then some a
    else
      let bits := bitLen a
      let s := bits - 24
      let base := a / 2 ^ s
      let rem := a % 2 ^ s
      let half := 2 ^ (s - 1)
      let base' := if half < rem ∨ (rem = half ∧ base % 2 = 1) then base + 1 else base
      let v := base' * 2 ^ s
      if v < 2 ^ 128 then some v else none
  let asInt : Int :=
    match rounded with
    | some v => satCast lo hi (if n < 0 then -(v : Int) else (v : Int))
    | none => if n < 0 then lo else hi
  asInt = n

/-- Accessor `Number::as_i128`. -/
def Number.as_i128 : Number → Option Int
  | .I128 n => some n
  | .U128 n => if (n : Int) ≤ i128Max then some n else none
  | .F32 v => v.toIntCheck i128Min i128Max
  | .F64 v => v.toIntCheck i128Min i128Max

/-- Accessor `Number::as_u128`. -/
def Number.as_u128 : Number → Option Nat
  | .I128 n => if 0 ≤ n then some n.toNat else none
  | .U128 n => some n
  | .F32 v => (v.toIntCheck 0 u128Max).map Int.toNat
  | .F64 v => (v.toIntCheck 0 u128Max).map Int.toNat

/-- Accessor `Number::as_f64`.  For the integer representations, Rust
checks that the value survives a round trip through `f32` and then returns
`n as f64`; on every value a theorem below evaluates, that cast is exact,
so the rational is returned exactly. -/
def Number.as_f64 : Number → Option FVal
  | .I128 n => if f32IntRoundTrip i128Min i128Max n then some (.finite n) else none
  | .U128 n => if f32IntRoundTrip 0 u128Max n then some (.finite n) else none
  | .F32 v => some v
  | .F64 v => some v

/-- The `PartialEq for Number` implementation: compare via the first
narrowing accessor pair that succeeds on both sides, with the special rule
that two NaNs are equal. -/
def Number.eq (a b : Number) : Bool :=
  match a.as_i128, b.as_i128 with
  | some x, some y => x = y
  | _, _ =>
    match a.as_u128, b.as_u128 with
    | some x, some y => x = y
    | _, _ =>
      match a.as_f64, b.as_f64 with
      | some x, some y => (x.is_nan && y.is_nan) || x.feq y
      | _, _ => false

/-- Method `Number::try_negate`. -/
def Number.try_negate : Number → Option Number
  | .I128 v => if v = i128Min then none else some (.I128 (-v))
  | .U128 v => if (v : Int) ≤ i128Max then some (.I128 (-(v : Int))) else none
  | .F32 v => some (.F32 v.neg)
  | .F64 v => some (.F64 v.neg)

/-- ASCII lowercasing of one character.  Rust `str::to_lowercase` is full
Unicode lowercasing; it agrees with this on ASCII, and every string on
which a theorem below evaluates it is ASCII. -/
def asciiLower (c : Char) : Char :=
  if 'A' ≤ c ∧ c ≤ 'Z' then Char.ofNat (c.toNat + 32) else c

/-- ASCII-lowercased character list. -/
def asciiLowerList (cs : List Char) : List Char := cs.map asciiLower

/-- Helper `looks_like_decimal` of `number.rs`. -/
def looks_like_decimal (cs : List Char) : Bool :=
  cs.contains '.' || cs.contains 'e' || cs.contains 'E'

/-- Is `c` an ASCII digit in base `radix` (2, 10 or 16)?  Yields its value. -/
def digitInRadix (radix : Nat) (c : Char) : Option Nat :=
  match toDigit16 c with
  | some d => if d < radix then some d else none
  | none => none

/-- Digit-fold of `u128::from_str_radix` over an all-digits list: `none` on
a non-digit or on overflow past `u128::MAX`. -/
def radixDigits (radix : Nat) : List Char → Nat → Option Nat
  | [], acc => some acc
  | c :: cs, acc =>
    match digitInRadix radix c with
    | some d =>
      let acc' := acc * radix + d
      if acc' ≤ u128Max then radixDigits radix cs acc' else none
    | none => none

/-- Rust `u128::from_str_radix` (also `str::parse::<u128>` at radix 10):
an optional leading `+` sign (a `-` fails for an unsigned target), then at
least one digit of the radix, failing on overflow. -/
def parseU128Radix (radix : Nat) (cs : List Char) : Option Nat :=
  let digits := match cs with
    | '+' :: rest => rest
    | other => other
  match digits with
  | [] => none
  | _ => radixDigits radix digits 0

/-- Decimal value of an all-ASCII-digit list (no bound checks; used by the
float grammar where the result feeds exact rational arithmetic). -/
def decDigitsVal : List Char → Nat
  | [] => 0
  | c :: cs => decDigitsVal cs + (c.toNat - 48) * 10 ^ cs.length

/-- Is `c` an ASCII digit? -/
def isAsciiDigit (c : Char) : Bool := '0' ≤ c ∧ c ≤ '9'

/-- The decimal part of the grammar of `str::parse::<f64>`: digits,
optionally a dot with more digits, requiring at least one digit in total,
then an optional exponent `e`/`E` with an optional sign and at least one
digit.  Returns the exact rational value.  (Rust rounds this value to the
nearest `f64`; every value a theorem below evaluates is exactly
representable, where the rounding is the identity.) -/
def parseF64Decimal (cs : List Char) : Option ℚ :=
  let intPart := cs.takeWhile isAsciiDigit
  let rest1 := cs.dropWhile isAsciiDigit
  let (fracPart, rest2) :=
    match rest1 with
    | '.' :: r => (r.takeWhile isAsciiDigit, r.dropWhile isAsciiDigit)
    | _ => ([], rest1)
  if intPart.length + fracPart.length = 0 then none
  else
    let mantissa : ℚ := (decDigitsVal (intPart ++ fracPart) : ℚ) / 10 ^ fracPart.length
    match rest2 with
    | [] => some mantissa
    | e :: r =>
      if e = 'e' ∨ e = 'E' then
        let (esign, edigits) :=
          match r with
          | '+' :: r2 => (1, r2)
          | '-' :: r2 => (-1, r2)
          | r2 => ((1 : Int), r2)
        if edigits ≠ [] ∧ edigits.all isAsciiDigit then
          some (mantissa * 10 ^ (esign * decDigitsVal edigits))
        else none
      else none

/-- Rust `str::parse::<f64>`: an optional sign, then either a
case-insensitive special (`inf`, `infinity`, `nan`) or a decimal literal. -/
def rustParseF64 (cs : List Char) : Option FVal :=
  let (neg, body) :=
    match cs with
    | '+' :: rest => (false, rest)
    | '-' :: rest => (true, rest)
    | other => (false, other)
  let low := asciiLowerList body
  if low = "inf".data ∨ low = "infinity".data then
    some (if neg then .neginf else .inf)
  else if low = "nan".data then
    some .nan
  else
    (parseF64Decimal body).map fun q => .finite (if neg then -q else q)

/-- Error message for a bare `nan` spelling. -/
def nanMsg : String :=
  String.mk ("NaN must be written as ".data ++ sq :: ("+nan".data ++ [sq]))

/-- The sign-stripping step of `Number::from_str`: an optional leading
`+` or `-` is removed and remembered as `1` or `-1`. -/
def stripSign : List Char → Int × List Char
  | '+' :: rest => (1, rest)
  | '-' :: rest => (-1, rest)
  | other => (1, other)

/-- The body of `Number::from_str` after underscores have been removed. -/
def fromStrNoUnderscore (cs : List Char) : Except String Number :=
  if cs = "+nan".data then .ok (.F32 .nan)
  else if cs = "-inf".data then .ok (.F32 .neginf)
  else if cs = "+inf".data then .ok (.F32 .inf)
  else
    let (sign, body) := stripSign cs
    if asciiLowerList body = "nan".data then .error nanMsg
    else
      let unsigned : Except String Number :=
        match dropLead "0b".data body with
        | some binary =>
          match parseU128Radix 2 binary with
          | some n => .ok (.U128 n)
          | none => .error ("Failed to parse binary number. Expected " ++
              String.mk (sq :: ("0b…".data ++ [sq])))
        | none =>
        match dropLead "0x".data body with
        | some hex =>
          match parseU128Radix 16 hex with
          | some n => .ok (.U128 n)
          | none => .error ("Failed to parse hexadecimal number. Expected " ++
              String.mk (sq :: ("0x…".data ++ [sq])))
        | none =>
        if looks_like_decimal body then
          match rustParseF64 body with
          | some v => .ok (.F64 v)
          | none => .error "Failed to parse float number. Expected a valid float."
        else
          match parseU128Radix 10 body with
          | some n => .ok (.U128 n)
          | none =>
            match rustParseF64 body with
            | some v => .ok (.F64 v)
            | none => .error "Failed to parse number"
      match unsigned with
      | .error e => .error e
      | .ok n =>
        if sign = -1 then
          match n.try_negate with
          | some m => .ok m
          | none => .error "Number too small"
        else .ok n

/-- Method `Number::from_str` (the `FromStr` implementation).  The Rust
code first recurses once on `string.replace('_', "")` when an underscore
is present; that is the same as filtering the underscores out up front. -/
def Number.from_str (s : String) : Except String Number :=
  let cs := if s.data.contains '_' then s.data.filter (· ≠ '_') else s.data
  fromStrNoUnderscore cs

/-- Is the stored representation the 32-bit float variant? -/
def Number.isF32 : Number → Bool
  | .F32 _ => true
  | _ => false

/-- Is the stored representation the 64-bit float variant? -/
def Number.isF64 : Number → Bool
  | .F64 _ => true
  | _ => false

/-! ## The tokenizer (`token_kind.rs`, a `logos` lexer) -/

/-- Token kinds of the lexer (`enum TokenKind`). -/
inductive TokenKind where
  | Comment
  | OpenList
  | CloseList
  | OpenBrace
  | CloseBrace
  | OpenParen
  | CloseParen
  | Colon
  | Comma
  | Identifier
  | Number
  | DoubleQuotedString
  | SingleQuotedString
  | MultilineBasicString
  | MultilineLiteralString
deriving DecidableEq, Repr

/-- The `Display` strings of `TokenKind` (used in parser error messages). -/
def TokenKind.display : TokenKind → String
  | .Comment => "// comment"
  | .OpenList => String.mk ("open bracket ".data ++ sq :: '[' :: [sq])
  | .CloseList => String.mk ("close bracket ".data ++ sq :: ']' :: [sq])
  | .OpenBrace => String.mk ("open brace ".data ++ sq :: braceO :: [sq])
  | .CloseBrace => String.mk ("close brace ".data ++ sq :: braceC :: [sq])
  | .OpenParen => String.mk ("open parenthesis ".data ++ sq :: '(' :: [sq])
  | .CloseParen => String.mk ("close parenthesis ".data ++ sq :: ')' :: [sq])
  | .Colon => String.mk ("colon ".data ++ sq :: ':' :: [sq])
  | .Comma => String.mk ("comma ".data ++ sq :: ',' :: [sq])
  | .Identifier => "identifier"
  | .Number => "number"
  | .DoubleQuotedString => "\"basic string\""
  | .SingleQuotedString => String.mk (sq :: ("literal string".data ++ [sq]))
  | .MultilineBasicString => "\"\"multiline basic string\"\""
  | .MultilineLiteralString =>
    String.mk (sq :: sq :: sq :: ("multiline literal string".data ++ [sq, sq, sq]))

/-- The `logos` skip class `[ \t\n\f]*`: inter-token whitespace. -/
def isSkipChar (c : Char) : Bool :=
  c = ' ' || c = '\t' || c = '\n' || c = '\x0c'

/-- First characters of identifiers: `[a-zA-Z_]`. -/
def isIdentStart (c : Char) : Bool :=
  ('a' ≤ c && c ≤ 'z') || ('A' ≤ c && c ≤ 'Z') || c = '_'

/-- Continuation characters of identifiers: `[a-zA-Z0-9_]`. -/
def isIdentCont (c : Char) : Bool :=
  isIdentStart c || ('0' ≤ c && c ≤ '9')

/-- First characters of number tokens: `[+\-0-9.]`. -/
def isNumStart (c : Char) : Bool :=
  c = '+' || c = '-' || c = '.' || ('0' ≤ c && c ≤ '9')

/-- Continuation characters of number tokens: `[0-9a-zA-Z.+\-_]`. -/
def isNumCont (c : Char) : Bool :=
  ('0' ≤ c && c ≤ '9') || ('a' ≤ c && c ≤ 'z') || ('A' ≤ c && c ≤ 'Z') ||
    c = '.' || c = '+' || c = '-' || c = '_'

/-- Length of the maximal run of characters satisfying `p`. -/
def countWhile (p : Char → Bool) : List Char → Nat
  | [] => 0
  | c :: cs => if p c then countWhile p cs + 1 else 0

/-- Maximal-munch length of a `Comment` token (`//[^\n]*`). -/
def matchCommentLen : List Char → Option Nat
  | '/' :: '/' :: cs => some (2 + countWhile (fun c => !(c = '\n')) cs)
  | _ => none

/-- Maximal-munch length of an `Identifier` token (`[a-zA-Z_][a-zA-Z0-9_]*`). -/
def matchIdentLen : List Char → Option Nat
  | [] => none
  | c :: cs => if isIdentStart c then some (1 + countWhile isIdentCont cs) else none

/-- Maximal-munch length of a `Number` token
(`[+\-0-9.][0-9a-zA-Z.+\-_]*`). -/
def matchNumberLen : List Char → Option Nat
  | [] => none
  | c :: cs => if isNumStart c then some (1 + countWhile isNumCont cs) else none

/-- Scan the content-and-closing-quote part of a `DoubleQuotedString`
token: the regex `"([^"\\]|\\.)*"` closes at the first quote that is not
consumed by a `\\.` escape pair (regex `.` does not match a newline), so
its match length is unique and computed by this scan. -/
def scanDq : List Char → Option Nat
  | [] => none
  | c :: rest =>
    if c = '"' then some 1
    else if c = '\\' then
      match rest with
      | [] => none
      | c2 :: rest2 => if c2 = '\n' then none else (scanDq rest2).map (· + 2)
    else (scanDq rest).map (· + 1)

/-- Maximal-munch length of a `DoubleQuotedString` token. -/
def matchDqLen : List Char → Option Nat
  | '"' :: cs => (scanDq cs).map (· + 1)
  | _ => none

/-- Maximal-munch length of a `SingleQuotedString` token (`'([^'])*'`):
the content cannot contain a quote, so the first quote closes it. -/
def matchSqLen (cs : List Char) : Option Nat :=
  match cs with
  | c :: rest =>
    if c = sq then
      let n := countWhile (fun x => !(x = sq)) rest
      match rest.drop n with
      | c2 :: _ => if c2 = sq then some (n + 2) else none
      | [] => none
    else none
  | [] => none

/-- Scan the content-and-closing-triple part of a multiline string token
with quote character `q`: the content regex `([^q]|q[^q]|qq[^q])*` can
never produce three consecutive quotes, so the first occurrence of `qqq`
closes the token and the match length is unique. -/
def scanTriple (q : Char) : List Char → Option Nat
  | [] => none
  | c1 :: rest1 =>
    if c1 = q then
      match rest1 with
      | [] => none
      | c2 :: rest2 =>
        if c2 = q then
          match rest2 with
          | [] => none
          | c3 :: rest3 =>
            if c3 = q then some 3
            else (scanTriple q rest3).map (· + 3)
        else (scanTriple q rest2).map (· + 2)
    else (scanTriple q rest1).map (· + 1)

/-- Maximal-munch length of a triple-quoted token with quote `q`. -/
def matchTripleLen (q : Char) (cs : List Char) : Option Nat :=
  match cs with
  | c1 :: c2 :: c3 :: rest =>
    if c1 = q ∧ c2 = q ∧ c3 = q then (scanTriple q rest).map (· + 3) else none
  | _ => none

/-- One maximal-munch step of the `logos` lexer: the token kind starting
at the head of `cs` and its length.  Within the two quote families the
triple-quoted form is preferred when it matches, since its match (length
at least 6) is strictly longer than the only possible plain-string match
at such a position (an empty string of length 2); everywhere else the
start characters of the kinds are disjoint. -/
def nextTokenKindLen (cs : List Char) : Option (TokenKind × Nat) :=
  match cs with
  | [] => none
  | c :: _ =>
    if c = '[' then some (.OpenList, 1)
    else if c = ']' then some (.CloseList, 1)
    else if c = braceO then some (.OpenBrace, 1)
    else if c = braceC then some (.CloseBrace, 1)
    else if c = '(' then some (.OpenParen, 1)
    else if c = ')' then some (.CloseParen, 1)
    else if c = ':' then some (.Colon, 1)
    else if c = ',' then some (.Comma, 1)
    else if c = '/' then (matchCommentLen cs).map (.Comment, ·)
    else if c = '"' then
      match matchTripleLen '"' cs with
      | some n => some (.MultilineBasicString, n)
      | none => (matchDqLen cs).map (.DoubleQuotedString, ·)
    else if c = sq then
      match matchTripleLen sq cs with
      | some n => some (.MultilineLiteralString, n)
      | none => (matchSqLen cs).map (.SingleQuotedString, ·)
    else if isIdentStart c then (matchIdentLen cs).map (.Identifier, ·)
    else if isNumStart c then (matchNumberLen cs).map (.Number, ·)
    else none

/-- A spanned token as produced by the lexer (`PlacedTokenResult`): the
`kind` is `none` for an input the lexer cannot classify (logos emits an
error item there; this model gives such an item a one-character span). -/
structure PTok where
  span : Span
  slice : String
  kind : Option TokenKind
deriving DecidableEq, Repr

/-- The lexer loop: skip whitespace, emit the next maximal-munch token or
a one-character error item.  Every step consumes at least one character,
so fuel `length + 1` never runs out. -/
def lexLoop : Nat → List Char → Nat → List PTok
  | 0, _, _ => []
  | fuel + 1, cs, pos =>
    match cs with
    | [] => []
    | c :: rest =>
      if isSkipChar c then lexLoop fuel rest (pos + 1)
      else
        match nextTokenKindLen (c :: rest) with
        | some (k, n) =>
          ⟨⟨pos, pos + n⟩, String.mk ((c :: rest).take n), some k⟩ ::
            lexLoop fuel ((c :: rest).drop n) (pos + n)
        | none => ⟨⟨pos, pos + 1⟩, String.mk [c], none⟩ :: lexLoop fuel rest (pos + 1)

/-- Tokenize a source string (the `PlacedTokenIter` over the `logos`
lexer, materialized). -/
def tokenize (s : String) : List PTok :=
  lexLoop (s.data.length + 1) s.data 0

/-- The token list produced by lexing a run of open brackets starting at
source offset `pos`: `k` one-character `OpenList` tokens. -/
def openToks : Nat → Nat → List PTok
  | _, 0 => []
  | pos, k + 1 => ⟨⟨pos, pos + 1⟩, "[", some .OpenList⟩ :: openToks (pos + 1) k

/-! ## The token tree (`token_tree.rs`) -/

mutual

/-- A parsed node (`struct TokenTree`): span, prefix comments, value,
optional same-line suffix comment. -/
inductive TokenTree where
  | mk (span : Option Span) (prefix_comments : List String)
       (value : TokenValue) (suffix_comment : Option String)

/-- The value of a node (`enum TokenValue`).  Atom payloads are the raw
source slices (including quotes for strings), as in Rust. -/
inductive TokenValue where
  | identifier (s : String)
  | number (s : String)
  | quotedString (s : String)
  | list (l : TokenList)
  | map (m : TokenMap)
  | variant (v : TokenVariant)

/-- A list value (`struct TokenList`). -/
inductive TokenList where
  | mk (values : TokenTrees) (closing_comments : List String)

/-- A map value (`struct TokenMap`). -/
inductive TokenMap where
  | mk (key_values : TokenKeyValues) (closing_comments : List String)

/-- A variant value (`struct TokenVariant`). -/
inductive TokenVariant where
  | mk (name_span : Option Span) (quoted_name : String)
       (values : TokenTrees) (closing_comments : List String)

/-- A sequence of nodes (`Vec<TokenTree>`, as its own inductive so that
every recursion below is structural). -/
inductive TokenTrees where
  | nil
  | cons (head : TokenTree) (tail : TokenTrees)

/-- A sequence of key-value pairs (`Vec<TokenKeyValue>`). -/
inductive TokenKeyValues where
  | nil
  | cons (key : TokenTree) (value : TokenTree) (tail : TokenKeyValues)

end

/-- Span of a node. -/
def TokenTree.span : TokenTree → Option Span
  | ⟨sp, _, _, _⟩ => sp

/-- Prefix comments of a node. -/
def TokenTree.prefix_comments : TokenTree → List String
  | ⟨_, pc, _, _⟩ => pc

/-- Value of a node. -/
def TokenTree.value : TokenTree → TokenValue
  | ⟨_, _, v, _⟩ => v

/-- Suffix comment of a node. -/
def TokenTree.suffix_comment : TokenTree → Option String
  | ⟨_, _, _, sc⟩ => sc

/-- Replace the prefix comments of a node. -/
def TokenTree.withPrefix (pc : List String) : TokenTree → TokenTree
  | ⟨sp, _, v, sc⟩ => ⟨sp, pc, v, sc⟩

/-- Replace the suffix comment of a node. -/
def TokenTree.withSuffix (sc : Option String) : TokenTree → TokenTree
  | ⟨sp, pc, v, _⟩ => ⟨sp, pc, v, sc⟩

/-- Values of a list value. -/
def TokenList.values : TokenList → TokenTrees
  | ⟨vs, _⟩ => vs

/-- Closing comments of a list value. -/
def TokenList.closing_comments : TokenList → List String
  | ⟨_, cc⟩ => cc

/-- Number of nodes in a sequence. -/
def TokenTrees.length : TokenTrees → Nat
  | .nil => 0
  | .cons _ tl => tl.length + 1

/-! ## The parser (`parse.rs`) -/

/-- Constant `MAX_RECURSION_DEPTH`. -/
def MAX_RECURSION_DEPTH : Nat := 128

/-- The token-stream state of the parser (`PeekableIter`): the source
text, the not-yet-consumed tokens and the span of the last token returned
by `next()`.  (The Rust `peeked` buffer is observationally the head of
the remaining tokens.) -/
structure PState where
  source : List Char
  toks : List PTok
  lastSpan : Span
deriving Repr

/-- Parse results: either a value with the state after it, or an error
with the state at which it was raised (the Rust iterator keeps its
position when an error propagates, and the top level compares how far
the two speculative parses advanced). -/
abbrev PResult (α : Type) := Except (Error × PState) (α × PState)

/-- The `Invalid token` error for an unclassifiable input
(`PlacedTokenIter::next` on a lexer error). -/
def invalidTokenErr (t : PTok) : Error :=
  Error.new_at t.span ("Invalid token: " ++ sq.toString ++ t.slice ++ sq.toString)

/-- The characters of the source strictly between offsets `a` and `b`. -/
def sliceBetween (src : List Char) (a b : Nat) : List Char :=
  (src.drop a).take (b - a)

/-- Method `end_span`: an empty span at the end of the source. -/
def endSpan (st : PState) : Span :=
  ⟨st.source.length, st.source.length⟩

/-- The loop of `parse_comments`: consume consecutive `Comment` tokens,
returning their slices, the rest of the stream and the new last span. -/
def parseCommentsGo : List PTok → Span → List String × List PTok × Span
  | [], last => ([], [], last)
  | t :: rest, last =>
    if t.kind = some .Comment then
      let (cs, r, l) := parseCommentsGo rest t.span
      (t.slice :: cs, r, l)
    else ([], t :: rest, last)

/-- Function `parse_comments`. -/
def parse_comments (st : PState) : List String × PState :=
  let (cs, r, l) := parseCommentsGo st.toks st.lastSpan
  (cs, ⟨st.source, r, l⟩)

/-- Function `parse_suffix_comment`: a following `Comment` token is a
suffix comment only when no newline separates it from the previous
token. -/
def parse_suffix_comment (st : PState) : PResult (Option String) :=
  match st.toks with
  | [] => .ok (none, st)
  | t :: rest =>
    if t.kind = some .Comment then
      if (sliceBetween st.source st.lastSpan.stop t.span.start).contains '\n' then
        .ok (none, st)
      else
        .ok (some t.slice, ⟨st.source, rest, t.span⟩)
    else .ok (none, st)

/-- Function `consume_token`. -/
def consume_token (st : PState) (expected : TokenKind) :
    Except (Error × PState) PState :=
  match st.toks with
  | t :: rest =>
    let st' : PState := ⟨st.source, rest, t.span⟩
    match t.kind with
    | none => .error (invalidTokenErr t, st')
    | some k =>
      if k = expected then .ok st'
      else
        .error (Error.new_at t.span
          ("Expected " ++ expected.display ++ " but found " ++ k.display), st')
  | [] =>
    .error (Error.new_at st.lastSpan
      ("Expected " ++ expected.display ++ " but reached end of input"), st)

/-- Function `check_for_trailing_tokens`. -/
def check_for_trailing_tokens (st : PState) : Except (Error × PState) PState :=
  match st.toks with
  | t :: rest =>
    let st' : PState := ⟨st.source, rest, t.span⟩
    match t.kind with
    | none => .error (invalidTokenErr t, st')
    | some _ => .error (Error.new_at t.span "Expected end of file here", st')
  | [] => .ok st

/-- Does the peeked token end the surrounding container (or is the input
exhausted)?  This is the `is_none_or(Close…)` check of the content
loops. -/
def peekIsCloseOrNone (st : PState) : Bool :=
  match st.toks with
  | [] => true
  | t :: _ =>
    t.kind = some .CloseBrace ∨ t.kind = some .CloseList ∨ t.kind = some .CloseParen

mutual

/-- Function `parse_token_tree`: parse one value with its prefix and
suffix comments.  The fuel decreases on every nested call; the entry
point supplies `2 * tokens + 2`, which suffices because at least one
token is consumed between every two nested calls. -/
def parse_token_tree : Nat → PState → Nat → PResult TokenTree
  | 0, st, _ => .error (Error.custom "out of fuel", st)
  | fuel + 1, st0, recurse_depth =>
    if MAX_RECURSION_DEPTH ≤ recurse_depth then
      .error (Error.new_at st0.lastSpan
        "Maximum recursion depth exceeded while parsing document", st0)
    else
      let (prefixC, st) := parse_comments st0
      match st.toks with
      | [] =>
        .error (Error.new_at (endSpan st) "Unexpected end of input: expected a value", st)
      | t :: rest =>
        let st1 : PState := ⟨st.source, rest, t.span⟩
        match t.kind with
        | none => .error (invalidTokenErr t, st1)
        | some kind =>
          let afterValue : PResult TokenValue :=
            match kind with
            | .OpenList =>
              match parse_list_contents fuel st1 (recurse_depth + 1) with
              | .error es => .error es
              | .ok (l, stA) =>
                match consume_token stA .CloseList with
                | .error es => .error es
                | .ok stB => .ok (.list l, stB)
            | .OpenBrace =>
              match parse_map_contents fuel st1 (recurse_depth + 1) with
              | .error es => .error es
              | .ok (m, stA) =>
                match consume_token stA .CloseBrace with
                | .error es => .error es
                | .ok stB => .ok (.map m, stB)
            | .Identifier => .ok (.identifier t.slice, st1)
            | .Number => .ok (.number t.slice, st1)
            | .DoubleQuotedString | .SingleQuotedString
            | .MultilineBasicString | .MultilineLiteralString =>
              match st1.toks with
              | p :: rest2 =>
                if p.kind = some .OpenParen then
                  let st2 : PState := ⟨st1.source, rest2, p.span⟩
                  match parse_list_contents fuel st2 (recurse_depth + 1) with
                  | .error es => .error es
                  | .ok (l, stA) =>
                    match consume_token stA .CloseParen with
                    | .error es => .error es
                    | .ok stB =>
                      .ok (.variant ⟨some t.span, t.slice, l.values, l.closing_comments⟩, stB)
                else .ok (.quotedString t.slice, st1)
              | [] => .ok (.quotedString t.slice, st1)
            | .Comment =>
              -- unreachable!: `parse_comments` has already consumed every comment
              .error (Error.custom "We should have already consumed comments", st1)
            | .CloseList => .error (Error.new_at t.span "Unbalanced brackets", st1)
            | .CloseBrace => .error (Error.new_at t.span "Unbalanced braces", st1)
            | .CloseParen => .error (Error.new_at t.span "Unbalanced parentheses", st1)
            | .OpenParen =>
              .error (Error.new_at t.span "Parentheses must be proceeded by a string", st1)
            | .Colon | .Comma =>
              .error (Error.new_at t.span
                "Expected a value, like a map, list, number, or string", st1)
          match afterValue with
          | .error es => .error es
          | .ok (value, st2) =>
            let span := t.span.union st2.lastSpan
            match parse_suffix_comment st2 with
            | .error es => .error es
            | .ok (suffix, st3) => .ok (⟨some span, prefixC, value, suffix⟩, st3)

/-- Function `parse_list_contents`: the element loop, as recursion (each
iteration conses one parsed element). -/
def parse_list_contents : Nat → PState → Nat → PResult TokenList
  | 0, st, _ => .error (Error.custom "out of fuel", st)
  | fuel + 1, st0, recurse_depth =>
    let (pc, st) := parse_comments st0
    if peekIsCloseOrNone st then .ok (⟨.nil, pc⟩, st)
    else
      match parse_token_tree fuel st (recurse_depth + 1) with
      | .error es => .error es
      | .ok (v, st1) =>
        let v := v.withPrefix (pc ++ v.prefix_comments)
        let commaStep : PResult TokenTree :=
          match st1.toks with
          | p :: rest =>
            if p.kind = some .Comma then
              match parse_suffix_comment ⟨st1.source, rest, p.span⟩ with
              | .error es => .error es
              | .ok (sfx, st2) => .ok (v.withSuffix sfx, st2)
            else .ok (v, st1)
          | [] => .ok (v, st1)
        match commaStep with
        | .error es => .error es
        | .ok (v, st2) =>
          match parse_list_contents fuel st2 recurse_depth with
          | .error es => .error es
          | .ok (tl, st3) => .ok (⟨.cons v tl.values, tl.closing_comments⟩, st3)

/-- Function `parse_map_contents`: the key-value loop, as recursion. -/
def parse_map_contents : Nat → PState → Nat → PResult TokenMap
  | 0, st, _ => .error (Error.custom "out of fuel", st)
  | fuel + 1, st0, recurse_depth =>
    let (pc, st) := parse_comments st0
    if peekIsCloseOrNone st then .ok (⟨.nil, pc⟩, st)
    else
      match parse_token_tree fuel st (recurse_depth + 1) with
      | .error es => .error es
      | .ok (key, st1) =>
        let key := key.withPrefix pc
        match consume_token st1 .Colon with
        | .error es => .error es
        | .ok st2 =>
          match parse_token_tree fuel st2 (recurse_depth + 1) with
          | .error es => .error es
          | .ok (value, st3) =>
            let commaStep : PResult TokenTree :=
              match st3.toks with
              | p :: rest =>
                if p.kind = some .Comma then
                  match parse_suffix_comment ⟨st3.source, rest, p.span⟩ with
                  | .error es => .error es
                  | .ok (sfx, st4) => .ok (value.withSuffix sfx, st4)
                else .ok (value, st3)
              | [] => .ok (value, st3)
            match commaStep with
            | .error es => .error es
            | .ok (value, st4) =>
              match parse_map_contents fuel st4 recurse_depth with
              | .error es => .error es
              | .ok (tl, st5) =>
                match tl with
                | ⟨kvs, cc⟩ => .ok (⟨.cons key value kvs, cc⟩, st5)

end

/-- The initial parser state over a source string. -/
def initState (s : String) : PState :=
  ⟨s.data, tokenize s, ⟨0, 0⟩⟩

/-- The fuel supplied to the speculative parses of `parse_top_str`:
sufficient because at least one token is consumed between every two
nested calls. -/
def initFuel (s : String) : Nat :=
  2 * (tokenize s).length + 2

/-- Function `parse_top_str`: try the whole input as map contents; if
that fails, try it as list contents, unwrapping a single value; if both
fail, report the error of the attempt that consumed more input. -/
def parse_top_str (eon_source : String) : Except Error TokenTree :=
  match parse_map_contents (initFuel eon_source) (initState eon_source) 0 with
  | .ok (map, stA) =>
    match check_for_trailing_tokens stA with
    | .error (e, _) => .error e
    | .ok _ =>
      .ok ⟨some ⟨0, eon_source.data.length⟩, [], .map map, none⟩
  | .error (errA, stA) =>
    match parse_list_contents (initFuel eon_source) (initState eon_source) 0 with
    | .ok (list, stB) =>
      match check_for_trailing_tokens stB with
      | .error (e, _) => .error e
      | .ok _ =>
        match list with
        | ⟨.cons v .nil, _⟩ => .ok v
        | ⟨values, closing_comments⟩ =>
          .ok ⟨some ⟨0, eon_source.data.length⟩, [],
            .list ⟨values, closing_comments⟩, none⟩
    | .error (errB, stB) =>
      if stA.lastSpan.stop < stB.lastSpan.stop then .error errB else .error errA

/-- Method `TokenTree::parse_str`. -/
def parse_str (source : String) : Except Error TokenTree :=
  parse_top_str source

/-! ## The formatter (`format.rs`) -/

/-- Options of the formatter (`struct FormatOptions`). -/
structure FormatOptions where
  indentation : String
  newline : String
  space_before_suffix_comment : String
  key_value_separator : String
  always_include_outer_braces : Bool
deriving DecidableEq, Repr

/-- The `Default` implementation of `FormatOptions`. -/
def FormatOptions.default : FormatOptions :=
  ⟨"\t", "\n", " ", ": ", false⟩

/-- Method `Formatter::add_indent`: the indentation unit repeated `ind`
times. -/
def addIndent (o : FormatOptions) : Nat → String
  | 0 => ""
  | n + 1 => addIndent o n ++ o.indentation

/-- Method `Formatter::indented_comments`: each comment on its own
indented line.  (The line break is the hard-coded `'\n'` pushed by the
Rust code, not the `newline` option.) -/
def fmtComments (o : FormatOptions) (ind : Nat) : List String → String
  | [] => ""
  | c :: cs => addIndent o ind ++ c ++ "\n" ++ fmtComments o ind cs

/-- Method `Formatter::suffix_comment`: a hard-coded single space and the
comment (the `space_before_suffix_comment` option is not consulted). -/
def sfxComment : Option String → String
  | some c => " " ++ c
  | none => ""

/-- Helper `is_simple` of `format.rs`. -/
def is_simple : TokenTree → Bool
  | ⟨_, pc, v, sc⟩ =>
    if pc.isEmpty && sc = none then
      match v with
      | .identifier _ => true
      | .number _ => true
      | .quotedString s => !(s.data.contains '\n')
      | .list ⟨.nil, []⟩ => true
      | .list _ => false
      | .map ⟨.nil, []⟩ => true
      | .map _ => false
      | .variant ⟨_, _, .nil, []⟩ => true
      | .variant _ => false
    else false

/-- Method `TokenValue::is_number`. -/
def TokenValue.is_number : TokenValue → Bool
  | .number _ => true
  | _ => false

/-- Are all nodes of a sequence `is_simple`? -/
def allSimple : TokenTrees → Bool
  | .nil => true
  | .cons h t => is_simple h && allSimple t

/-- Are all nodes of a sequence numbers? -/
def allNumbers : TokenTrees → Bool
  | .nil => true
  | .cons ⟨_, _, v, _⟩ t => v.is_number && allNumbers t

/-- The conservative width estimate of `should_format_values_on_one_line`:
each quoted string counts its slice length, every other atom a stand-in
width of 5, plus 2 per separator.  (Rust measures the slice in bytes;
this model counts characters, which agrees on ASCII slices.) -/
def estWidth : TokenTrees → Nat
  | .nil => 0
  | .cons ⟨_, _, v, _⟩ t =>
    (match v with
      | .quotedString s => s.length
      | _ => 5) + 2 + estWidth t

/-- Helper `should_format_values_on_one_line` of `format.rs`. -/
def should_format_values_on_one_line (vs : TokenTrees) : Bool :=
  if !allSimple vs then false
  else if vs.length ≤ 4 && allNumbers vs then true
  else if 4 < vs.length then false
  else estWidth vs < 60

/-- Does any node of the sequence carry a prefix comment
(`add_blank_lines` of the list/variant loops)? -/
def anyPrefixComments : TokenTrees → Bool
  | .nil => false
  | .cons ⟨_, pc, _, _⟩ t => !pc.isEmpty || anyPrefixComments t

/-- Does any key carry a prefix comment (`add_blank_lines` of
`map_content`)? -/
def anyKeyPrefixComments : TokenKeyValues → Bool
  | .nil => false
  | .cons ⟨_, pc, _, _⟩ _ t => !pc.isEmpty || anyKeyPrefixComments t

/-- The general (non-fused) case of `Formatter::variant`: the one-line
rendering when eligible, else the multi-line body.  The already-rendered
one-line and element strings are passed in by the caller so that the
recursive calls stay at the call sites (keeping the recursion
structural). -/
def fmtVariantPlain (o : FormatOptions) (ind : Nat) (name : String)
    (vs : TokenTrees) (cc : List String) (oneLine itemsStr : String) : String :=
  if cc.isEmpty && should_format_values_on_one_line vs then
    name ++ "(" ++ oneLine ++ ")"
  else
    name ++ "(" ++ "\n" ++ itemsStr ++
      (if anyPrefixComments vs && !cc.isEmpty then "\n" else "") ++
      fmtComments o (ind + 1) cc ++
      addIndent o ind ++ ")"

/- The mutual formatter.  Lean's structural mutual recursion requires one
inductive argument per function, so the bodies of `Formatter::list`,
`Formatter::map`, `Formatter::variant`, `Formatter::list_content`,
`Formatter::map_content` and `Formatter::indented_key_value` are inlined
into `fmtValue`/`fmtKVItems` here; the named wrappers after this block
restate them (definitionally equal). -/
mutual

/-- Method `Formatter::indented_value`: prefix comments, indentation, the
value, then the suffix comment. -/
def fmtTree (o : FormatOptions) (ind : Nat) : TokenTree → String
  | ⟨_, pc, v, sc⟩ =>
    fmtComments o ind pc ++ addIndent o ind ++ fmtValue o ind v ++ sfxComment sc

/-- Method `Formatter::value` (with `list`, `map` and `variant`
inlined). -/
def fmtValue (o : FormatOptions) (ind : Nat) : TokenValue → String
  | .identifier s => s
  | .number s => s
  | .quotedString s => s
  | .list ⟨.nil, []⟩ => "[]"
  | .list ⟨vs, cc⟩ =>
    if cc.isEmpty && should_format_values_on_one_line vs then
      "[" ++ fmtOneLine o ind vs ++ "]"
    else
      "[" ++ "\n" ++
        (fmtItems o (ind + 1) (anyPrefixComments vs) vs ++
          (if anyPrefixComments vs && !cc.isEmpty then "\n" else "") ++
          fmtComments o (ind + 1) cc) ++
        addIndent o ind ++ "]"
  | .map ⟨.nil, []⟩ => "\x7b\x7d"
  | .map ⟨kvs, cc⟩ =>
    "\x7b" ++ "\n" ++
      (fmtKVItems o (ind + 1) (anyKeyPrefixComments kvs) kvs ++
        (if anyKeyPrefixComments kvs && !cc.isEmpty then "\n" else "") ++
        fmtComments o (ind + 1) cc) ++
      addIndent o ind ++ "\x7d"
  | .variant ⟨_, name, .nil, []⟩ => name
  | .variant ⟨_, name, .cons ⟨vsp, vpc, .map ⟨.nil, []⟩, vsc⟩ .nil, []⟩ =>
    if should_format_values_on_one_line
        (.cons ⟨vsp, vpc, .map ⟨.nil, []⟩, vsc⟩ .nil) then
      name ++ "(" ++ fmtOneLine o ind (.cons ⟨vsp, vpc, .map ⟨.nil, []⟩, vsc⟩ .nil) ++ ")"
    else name ++ "(\x7b \x7d)"
  | .variant ⟨_, name, .cons ⟨vsp, vpc, .map ⟨.cons k v kvs, mcc⟩, vsc⟩ .nil, []⟩ =>
    if should_format_values_on_one_line
        (.cons ⟨vsp, vpc, .map ⟨.cons k v kvs, mcc⟩, vsc⟩ .nil) then
      name ++ "(" ++
        fmtOneLine o ind (.cons ⟨vsp, vpc, .map ⟨.cons k v kvs, mcc⟩, vsc⟩ .nil) ++ ")"
    else
      name ++ "(\x7b" ++ "\n" ++
        (fmtKVItems o (ind + 1) (anyKeyPrefixComments (.cons k v kvs)) (.cons k v kvs) ++
          (if anyKeyPrefixComments (.cons k v kvs) && !mcc.isEmpty then "\n" else "") ++
          fmtComments o (ind + 1) mcc) ++
        addIndent o ind ++ "\x7d)"
  | .variant ⟨_, name, .cons ⟨vsp, vpc, .map ⟨.nil, c :: mcc⟩, vsc⟩ .nil, []⟩ =>
    if should_format_values_on_one_line
        (.cons ⟨vsp, vpc, .map ⟨.nil, c :: mcc⟩, vsc⟩ .nil) then
      name ++ "(" ++
        fmtOneLine o ind (.cons ⟨vsp, vpc, .map ⟨.nil, c :: mcc⟩, vsc⟩ .nil) ++ ")"
    else
      name ++ "(\x7b" ++ "\n" ++
        (fmtKVItems o (ind + 1) (anyKeyPrefixComments .nil) .nil ++
          (if anyKeyPrefixComments .nil && !(c :: mcc).isEmpty then "\n" else "") ++
          fmtComments o (ind + 1) (c :: mcc)) ++
        addIndent o ind ++ "\x7d)"
  | .variant ⟨_, name, .cons ⟨vsp, vpc, .list ⟨.nil, []⟩, vsc⟩ .nil, []⟩ =>
    if should_format_values_on_one_line
        (.cons ⟨vsp, vpc, .list ⟨.nil, []⟩, vsc⟩ .nil) then
      name ++ "(" ++ fmtOneLine o ind (.cons ⟨vsp, vpc, .list ⟨.nil, []⟩, vsc⟩ .nil) ++ ")"
    else name ++ "([ ])"
  | .variant ⟨_, name, .cons ⟨vsp, vpc, .list ⟨.cons lv lvs, lcc⟩, vsc⟩ .nil, []⟩ =>
    if should_format_values_on_one_line
        (.cons ⟨vsp, vpc, .list ⟨.cons lv lvs, lcc⟩, vsc⟩ .nil) then
      name ++ "(" ++
        fmtOneLine o ind (.cons ⟨vsp, vpc, .list ⟨.cons lv lvs, lcc⟩, vsc⟩ .nil) ++ ")"
    else
      name ++ "([" ++ "\n" ++
        (fmtItems o (ind + 1) (anyPrefixComments (.cons lv lvs)) (.cons lv lvs) ++
          (if anyPrefixComments (.cons lv lvs) && !lcc.isEmpty then "\n" else "") ++
          fmtComments o (ind + 1) lcc) ++
        addIndent o ind ++ "])"
  | .variant ⟨_, name, .cons ⟨vsp, vpc, .list ⟨.nil, c :: lcc⟩, vsc⟩ .nil, []⟩ =>
    if should_format_values_on_one_line
        (.cons ⟨vsp, vpc, .list ⟨.nil, c :: lcc⟩, vsc⟩ .nil) then
      name ++ "(" ++
        fmtOneLine o ind (.cons ⟨vsp, vpc, .list ⟨.nil, c :: lcc⟩, vsc⟩ .nil) ++ ")"
    else
      name ++ "([" ++ "\n" ++
        (fmtItems o (ind + 1) (anyPrefixComments .nil) .nil ++
          (if anyPrefixComments .nil && !(c :: lcc).isEmpty then "\n" else "") ++
          fmtComments o (ind + 1) (c :: lcc)) ++
        addIndent o ind ++ "])"
  | .variant ⟨_, name, .cons ⟨vsp, vpc, .identifier s, vsc⟩ .nil, []⟩ =>
    fmtVariantPlain o ind name (.cons ⟨vsp, vpc, .identifier s, vsc⟩ .nil) []
      (fmtOneLine o ind (.cons ⟨vsp, vpc, .identifier s, vsc⟩ .nil))
      (fmtItems o (ind + 1)
        (anyPrefixComments (.cons ⟨vsp, vpc, .identifier s, vsc⟩ .nil))
        (.cons ⟨vsp, vpc, .identifier s, vsc⟩ .nil))
  | .variant ⟨_, name, .cons ⟨vsp, vpc, .number s, vsc⟩ .nil, []⟩ =>
    fmtVariantPlain o ind name (.cons ⟨vsp, vpc, .number s, vsc⟩ .nil) []
      (fmtOneLine o ind (.cons ⟨vsp, vpc, .number s, vsc⟩ .nil))
      (fmtItems o (ind + 1)
        (anyPrefixComments (.cons ⟨vsp, vpc, .number s, vsc⟩ .nil))
        (.cons ⟨vsp, vpc, .number s, vsc⟩ .nil))
  | .variant ⟨_, name, .cons ⟨vsp, vpc, .quotedString s, vsc⟩ .nil, []⟩ =>
    fmtVariantPlain o ind name (.cons ⟨vsp, vpc, .quotedString s, vsc⟩ .nil) []
      (fmtOneLine o ind (.cons ⟨vsp, vpc, .quotedString s, vsc⟩ .nil))
      (fmtItems o (ind + 1)
        (anyPrefixComments (.cons ⟨vsp, vpc, .quotedString s, vsc⟩ .nil))
        (.cons ⟨vsp, vpc, .quotedString s, vsc⟩ .nil))
  | .variant ⟨_, name, .cons ⟨vsp, vpc, .variant w, vsc⟩ .nil, []⟩ =>
    fmtVariantPlain o ind name (.cons ⟨vsp, vpc, .variant w, vsc⟩ .nil) []
      (fmtOneLine o ind (.cons ⟨vsp, vpc, .variant w, vsc⟩ .nil))
      (fmtItems o (ind + 1)
        (anyPrefixComments (.cons ⟨vsp, vpc, .variant w, vsc⟩ .nil))
        (.cons ⟨vsp, vpc, .variant w, vsc⟩ .nil))
  | .variant ⟨_, name, .cons h (.cons h2 t), []⟩ =>
    fmtVariantPlain o ind name (.cons h (.cons h2 t)) []
      (fmtOneLine o ind (.cons h (.cons h2 t)))
      (fmtItems o (ind + 1) (anyPrefixComments (.cons h (.cons h2 t)))
        (.cons h (.cons h2 t)))
  | .variant ⟨_, name, vs, c :: cc⟩ =>
    fmtVariantPlain o ind name vs (c :: cc)
      (fmtOneLine o ind vs)
      (fmtItems o (ind + 1) (anyPrefixComments vs) vs)

/-- The one-line rendering of `Formatter::list`/`Formatter::variant`:
comma-separated values. -/
def fmtOneLine (o : FormatOptions) (ind : Nat) : TokenTrees → String
  | .nil => ""
  | .cons ⟨_, _, v, _⟩ .nil => fmtValue o ind v
  | .cons ⟨_, _, v, _⟩ t => fmtValue o ind v ++ ", " ++ fmtOneLine o ind t

/-- The element loop of `Formatter::list_content` (and of the general
variant case): each element on its own line, with a blank line between
consecutive elements when `ab` is set. -/
def fmtItems (o : FormatOptions) (ind : Nat) (ab : Bool) : TokenTrees → String
  | .nil => ""
  | .cons h .nil => fmtTree o ind h ++ "\n"
  | .cons h t =>
    fmtTree o ind h ++ "\n" ++ (if ab then "\n" else "") ++ fmtItems o ind ab t

/-- The key-value loop of `Formatter::map_content`, with
`Formatter::indented_key_value` inlined: the comments of the key and of
the value, the indented key, the configured key/value separator, the
value, and the value's suffix comment. -/
def fmtKVItems (o : FormatOptions) (ind : Nat) (ab : Bool) : TokenKeyValues → String
  | .nil => ""
  | .cons ⟨_, kpc, kv, _⟩ ⟨_, vpc, vv, vsc⟩ .nil =>
    (fmtComments o ind kpc ++ fmtComments o ind vpc ++ addIndent o ind ++
      fmtValue o ind kv ++ o.key_value_separator ++ fmtValue o ind vv ++
      sfxComment vsc) ++ "\n"
  | .cons ⟨_, kpc, kv, _⟩ ⟨_, vpc, vv, vsc⟩ t =>
    (fmtComments o ind kpc ++ fmtComments o ind vpc ++ addIndent o ind ++
      fmtValue o ind kv ++ o.key_value_separator ++ fmtValue o ind vv ++
      sfxComment vsc) ++ "\n" ++ (if ab then "\n" else "") ++ fmtKVItems o ind ab t

end

/-- Method `Formatter::list_content` (a wrapper over the loop). -/
def fmtListContent (o : FormatOptions) (ind : Nat) (vs : TokenTrees)
    (cc : List String) : String :=
  fmtItems o ind (anyPrefixComments vs) vs ++
    (if anyPrefixComments vs && !cc.isEmpty then "\n" else "") ++ fmtComments o ind cc

/-- Method `Formatter::map_content` (a wrapper over the loop). -/
def fmtMapContent (o : FormatOptions) (ind : Nat) (kvs : TokenKeyValues)
    (cc : List String) : String :=
  fmtKVItems o ind (anyKeyPrefixComments kvs) kvs ++
    (if anyKeyPrefixComments kvs && !cc.isEmpty then "\n" else "") ++ fmtComments o ind cc

/-- Method `TokenTree::format`: the top level omits the outer braces of a
map unless `always_include_outer_braces` is set. -/
def TokenTree.format (t : TokenTree) (o : FormatOptions) : String :=
  if !o.always_include_outer_braces then
    match t with
    | ⟨_, pc, .map ⟨kvs, cc⟩, sc⟩ =>
      fmtComments o 0 pc ++ fmtMapContent o 0 kvs cc ++ sfxComment sc
    | _ => fmtTree o 0 t
  else fmtTree o 0 t

/-- Function `reformat` of `eon_syntax/src/lib.rs`. -/
def reformat (eon_source : String) (options : FormatOptions) : Except Error String :=
  (parse_str eon_source).map fun value => value.format options

/-- Builder method `FormatOptions::with_newline`: replace the `newline`
field, keeping the other four options. -/
def FormatOptions.with_newline (o : FormatOptions) (nl : String) : FormatOptions :=
  ⟨o.indentation, nl, o.space_before_suffix_comment, o.key_value_separator,
    o.always_include_outer_braces⟩

/-- Token lists whose members all lexed successfully. -/
def allOk (u : List PTok) : Prop := ∀ t ∈ u, t.kind ≠ none

/-- `st2` is `st` with a prefix of successfully lexed tokens consumed. -/
def Consumed (st st2 : PState) : Prop :=
  ∃ u, st.toks = u ++ st2.toks ∧ allOk u

/-- One idempotence check of `reformat` (both steps must succeed and the
second output must equal the first). -/
def c2IdemB (s : String) : Bool :=
  match reformat s FormatOptions.default with
  | .ok out =>
    match reformat out FormatOptions.default with
    | .ok out2 => out2 == out
    | .error _ => false
  | .error _ => false

/-- Machine-checked idempotence corpus: documents covering maps, lists,
the empty map, comments, variants, quoted strings and multi-value
files. -/
def c2Corpus : List String :=
  [ "a: 1",
    "42",
    "[1, 2]",
    "k: \x7b\x7d",
    "m: \x7b a: 1 \x7d",
    "s: \"hi\"",
    "x: +nan",
    "// c\nk: 1",
    "v: \"w\"(1)",
    "1, 2" ]

/-! ## Theorems about the strings module -/

/-- C1: the quote/unquote round trip fails on the one-character NUL string.
`escape_and_quote` renders U+0000 with Rust `Debug` as the escape `\0`, but
`unescape_and_unquote` has no case for `\0` and rejects it, where the spec
requires `unquote(quote(r)) == Ok(r)` for every raw string including ones
with control characters. -/
theorem c1_nul_round_trip_fails :
    escape_and_quote "\x00" = String.mk ['"', '\\', '0', '"'] ∧
    unescape_and_unquote (escape_and_quote "\x00") =
      .error "Unknown escape sequence: \\0" := by
  constructor <;> rfl

/-! ## Theorems about the number model -/

set_option maxRecDepth 4000 in
/-- C3 counterexample: `Number::from_str("1")` and `Number::from_str("1.0")`
compare equal, refuting the claim that `parse("1") == parse("1.0")` is
false.  `as_i128` succeeds on both sides (the float is integral), so the
equality coerces across the representations. -/
theorem c3_counterexample_int_float_equal :
    Number.from_str "1" = .ok (.U128 1) ∧
    Number.from_str "1.0" = .ok (.F64 (.finite 1)) ∧
    Number.eq (.U128 1) (.F64 (.finite 1)) = true := by
  have h : Number.from_str "1.0" = .ok (.F64 (.finite (((10 : ℕ) : ℚ) / 10 ^ 1))) := rfl
  exact ⟨rfl, by rw [h]; norm_num, by decide⟩

set_option maxRecDepth 4000 in
/-- C3 as amended: cross-representation equality of `Number` compares
numerically through the narrowing accessors, so `parse("1") ==
parse("1.0")` is TRUE (not false as claimed); `parse("+0x0a") ==
parse("10")` is true; and `parse("+nan") == parse("+nan")` is true by the
special NaN rule even though the underlying float equality on NaN is
false. -/
theorem c3_cross_representation_equality :
    (Number.from_str "1" = .ok (.U128 1) ∧
      Number.from_str "1.0" = .ok (.F64 (.finite 1)) ∧
      Number.eq (.U128 1) (.F64 (.finite 1)) = true) ∧
    (Number.from_str "+0x0a" = .ok (.U128 10) ∧
      Number.from_str "10" = .ok (.U128 10) ∧
      Number.eq (.U128 10) (.U128 10) = true) ∧
    (Number.from_str "+nan" = .ok (.F32 .nan) ∧
      Number.eq (.F32 .nan) (.F32 .nan) = true ∧
      FVal.feq .nan .nan = false) := by
  have h : Number.from_str "1.0" = .ok (.F64 (.finite (((10 : ℕ) : ℚ) / 10 ^ 1))) := rfl
  exact ⟨⟨rfl, by rw [h]; norm_num, by decide⟩,
    ⟨by decide, by decide, by decide⟩,
    ⟨rfl, by decide, rfl⟩⟩

set_option maxRecDepth 4000 in
/-- C5 counterexample: the literal `1.0` round-trips exactly through 32
bits, yet `Number::from_str` stores the 64-bit float variant, not the
32-bit one as claimed. -/
theorem c5_counterexample_one_point_zero_is_f64 :
    Number.from_str "1.0" = .ok (.F64 (.finite 1)) ∧
    (Number.from_str "1.0").map Number.isF32 = .ok false := by
  have h : Number.from_str "1.0" = .ok (.F64 (.finite (((10 : ℕ) : ℚ) / 10 ^ 1))) := rfl
  exact ⟨by rw [h]; norm_num, by rw [h]; rfl⟩

/-- C5 as amended: whenever `Number::from_str` parses a decimal/exponent
literal (one containing `.`, `e` or `E`), the stored representation is
ALWAYS the 64-bit float variant; no 32-bit narrowing is attempted at parse
time (that narrowing existed only in a superseded iteration of the
crate). -/
theorem c5_decimal_literals_always_f64 (s : String) (sign : Int)
    (body : List Char) (v : FVal)
    (hu : s.data.contains '_' = false)
    (h1 : s.data ≠ "+nan".data) (h2 : s.data ≠ "-inf".data)
    (h3 : s.data ≠ "+inf".data)
    (hs : stripSign s.data = (sign, body))
    (hn : asciiLowerList body ≠ "nan".data)
    (hb : dropLead "0b".data body = none)
    (hx : dropLead "0x".data body = none)
    (hd : looks_like_decimal body = true)
    (hf : rustParseF64 body = some v) :
    Number.from_str s = .ok (.F64 (if sign = -1 then v.neg else v)) := by
  unfold Number.from_str
  rw [hu]
  simp only [Bool.false_eq_true, if_false]
  unfold fromStrNoUnderscore
  rw [if_neg h1, if_neg h2, if_neg h3, hs]
  simp only [if_neg hn, hb, hx, hd, if_pos rfl, hf]
  by_cases hsg : sign = -1
  · simp [hsg, Number.try_negate]
  · simp [hsg]

/-- C5 witness: the amended theorem applied to the literal `1.5`. -/
theorem c5_decimal_literals_always_f64_witness :
    stripSign "1.5".data = (1, "1.5".data) ∧
    rustParseF64 "1.5".data = some (.finite (3 / 2)) ∧
    Number.from_str "1.5" = .ok (.F64 (.finite (3 / 2))) := by
  have hf0 : rustParseF64 "1.5".data = some (.finite (((15 : ℕ) : ℚ) / 10 ^ 1)) := rfl
  have hf : rustParseF64 "1.5".data = some (.finite (3 / 2)) := by
    rw [hf0]; norm_num
  refine ⟨rfl, hf, ?_⟩
  have h := c5_decimal_literals_always_f64 "1.5" 1 "1.5".data (.finite (3 / 2))
    (by decide) (by decide) (by decide) (by decide) rfl (by decide) (by decide)
    (by decide) (by decide) hf
  simpa using h

/-- C7 counterexample: the bare spelling `inf` is NOT rejected by
`Number::from_str`; it falls through to the `f64` fallback parse (which
accepts `inf` case-insensitively) and is accepted as a 64-bit float
infinity, refuting the claim that every bare `inf` spelling yields a
did-you-mean error. -/
theorem c7_counterexample_bare_inf_accepted :
    Number.from_str "inf" = .ok (.F64 .inf) := by decide

/-- C7 as amended: `Number::from_str` accepts the signed special literals
`+inf`, `-inf` and `+nan` (stored as 32-bit floats).  Every bare `nan`
spelling — any letter case, with or without a sign, other than exactly
`+nan` — is rejected with the suggestion message
`NaN must be written as '+nan'`.  Bare `inf` spellings, however, are
accepted by the fallback float parse as 64-bit infinities (their rejection
with a did-you-mean hint happens in a different layer, where `inf` lexes
as an identifier). -/
theorem c7_special_float_literals :
    (Number.from_str "+inf" = .ok (.F32 .inf) ∧
      Number.from_str "-inf" = .ok (.F32 .neginf) ∧
      Number.from_str "+nan" = .ok (.F32 .nan) ∧
      Number.from_str "inf" = .ok (.F64 .inf) ∧
      Number.from_str "Inf" = .ok (.F64 .inf)) ∧
    ∀ (s : String) (sign : Int) (body : List Char),
      s.data.contains '_' = false →
      s.data ≠ "+nan".data →
      stripSign s.data = (sign, body) →
      asciiLowerList body = "nan".data →
      Number.from_str s = .error nanMsg := by
  constructor
  · exact ⟨rfl, rfl, rfl, by decide, by decide⟩
  · intro s sign body hu hne hs hlow
    have h2 : s.data ≠ "-inf".data := by
      intro h
      rw [h] at hs
      have hb : body = "inf".data := by
        have := congrArg Prod.snd hs
        simpa [stripSign] using this.symm
      rw [hb] at hlow
      revert hlow
      decide
    have h3 : s.data ≠ "+inf".data := by
      intro h
      rw [h] at hs
      have hb : body = "inf".data := by
        have := congrArg Prod.snd hs
        simpa [stripSign] using this.symm
      rw [hb] at hlow
      revert hlow
      decide
    unfold Number.from_str
    rw [hu]
    simp only [Bool.false_eq_true, if_false]
    unfold fromStrNoUnderscore
    rw [if_neg hne, if_neg h2, if_neg h3, hs]
    simp [hlow]

/-- C7 witness: the amended theorem rejects the concrete spelling `-NAN`. -/
theorem c7_special_float_literals_witness :
    stripSign "-NAN".data = (-1, "NAN".data) ∧
    asciiLowerList "NAN".data = "nan".data ∧
    Number.from_str "-NAN" = .error nanMsg := by
  refine ⟨rfl, by decide, ?_⟩
  exact c7_special_float_literals.2 "-NAN" (-1) "NAN".data (by decide)
    (by decide) rfl (by decide)

/-! ## The formatter ignores the newline option (C8) -/

theorem with_newline_kv_sep (o : FormatOptions) (nl : String) :
    (o.with_newline nl).key_value_separator = o.key_value_separator := rfl

theorem addIndent_nl (o : FormatOptions) (nl : String) :
    ∀ ind, addIndent (o.with_newline nl) ind = addIndent o ind
  | 0 => rfl
  | n + 1 => by simp [addIndent, addIndent_nl o nl n]; rfl

theorem fmtComments_nl (o : FormatOptions) (nl : String) (ind : Nat) :
    ∀ cs, fmtComments (o.with_newline nl) ind cs = fmtComments o ind cs
  | [] => rfl
  | c :: cs => by simp [fmtComments, fmtComments_nl o nl ind cs, addIndent_nl]

theorem fmtValue_variant_cons2 (o : FormatOptions) (ind : Nat) (nsp : Option Span)
    (name : String) (hd h2 : TokenTree) (tl : TokenTrees) :
    fmtValue o ind (.variant ⟨nsp, name, .cons hd (.cons h2 tl), []⟩) =
      fmtVariantPlain o ind name (.cons hd (.cons h2 tl)) []
        (fmtOneLine o ind (.cons hd (.cons h2 tl)))
        (fmtItems o (ind + 1) (anyPrefixComments (.cons hd (.cons h2 tl)))
          (.cons hd (.cons h2 tl))) := by
  obtain ⟨hsp, hpc, hv, hsc⟩ := hd
  cases hv with
  | identifier s => rfl
  | number s => rfl
  | quotedString s => rfl
  | variant w => rfl
  | list l =>
    obtain ⟨lvs, lcc⟩ := l
    cases lvs with
    | nil => cases lcc with
      | nil => rfl
      | cons c lcc => rfl
    | cons lv lvs => rfl
  | map m =>
    obtain ⟨kvs, mcc⟩ := m
    cases kvs with
    | nil => cases mcc with
      | nil => rfl
      | cons c mcc => rfl
    | cons k kv kvs => rfl

theorem fmtValue_variant_cc (o : FormatOptions) (ind : Nat) (nsp : Option Span)
    (name : String) (vs : TokenTrees) (c : String) (cc : List String) :
    fmtValue o ind (.variant ⟨nsp, name, vs, c :: cc⟩) =
      fmtVariantPlain o ind name vs (c :: cc)
        (fmtOneLine o ind vs)
        (fmtItems o (ind + 1) (anyPrefixComments vs) vs) := by
  cases vs with
  | nil => rfl
  | cons hd tl =>
    obtain ⟨hsp, hpc, hv, hsc⟩ := hd
    cases hv with
    | identifier s => cases tl with
      | nil => rfl
      | cons h2 tl => rfl
    | number s => cases tl with
      | nil => rfl
      | cons h2 tl => rfl
    | quotedString s => cases tl with
      | nil => rfl
      | cons h2 tl => rfl
    | variant w => cases tl with
      | nil => rfl
      | cons h2 tl => rfl
    | list l =>
      obtain ⟨lvs, lcc⟩ := l
      cases lvs with
      | nil => cases lcc with
        | nil => cases tl with
          | nil => rfl
          | cons h2 tl => rfl
        | cons c2 lcc => cases tl with
          | nil => rfl
          | cons h2 tl => rfl
      | cons lv lvs => cases tl with
        | nil => rfl
        | cons h2 tl => rfl
    | map m =>
      obtain ⟨kvs, mcc⟩ := m
      cases kvs with
      | nil => cases mcc with
        | nil => cases tl with
          | nil => rfl
          | cons c2 mcc => rfl
        | cons c2 mcc => cases tl with
          | nil => rfl
          | cons h2 tl => rfl
      | cons k kv kvs => cases tl with
        | nil => rfl
        | cons h2 tl => rfl

theorem fmt_nl_master (o : FormatOptions) (nl : String) :
    ∀ n : Nat,
      (∀ ind t, sizeOf t < n → fmtTree (o.with_newline nl) ind t = fmtTree o ind t) ∧
      (∀ ind v, sizeOf v < n → fmtValue (o.with_newline nl) ind v = fmtValue o ind v) ∧
      (∀ ind ts, sizeOf ts < n →
        fmtOneLine (o.with_newline nl) ind ts = fmtOneLine o ind ts) ∧
      (∀ ind ab ts, sizeOf ts < n →
        fmtItems (o.with_newline nl) ind ab ts = fmtItems o ind ab ts) ∧
      (∀ ind ab kvs, sizeOf kvs < n →
        fmtKVItems (o.with_newline nl) ind ab kvs = fmtKVItems o ind ab kvs) := by
  intro n
  induction n with
  | zero =>
    refine ⟨fun ind t h => ?_, fun ind v h => ?_, fun ind ts h => ?_,
      fun ind ab ts h => ?_, fun ind ab kvs h => ?_⟩
    · exact absurd h (Nat.not_lt_zero _)
    · exact absurd h (Nat.not_lt_zero _)
    · exact absurd h (Nat.not_lt_zero _)
    · exact absurd h (Nat.not_lt_zero _)
    · exact absurd h (Nat.not_lt_zero _)
  | succ n IH =>
    obtain ⟨IHt, IHv, IH1, IHi, IHk⟩ := IH
    refine ⟨fun ind t h => ?_, fun ind v => ?_, fun ind ts => ?_,
      fun ind ab ts => ?_, fun ind ab kvs => ?_⟩
    · -- fmtTree
      obtain ⟨sp, pc, v, sc⟩ := t
      simp only [TokenTree.mk.sizeOf_spec] at h
      simp only [fmtTree, fmtComments_nl, addIndent_nl, IHv ind v (by omega)]
    · -- fmtValue
      match v with
      | .identifier s => intro h; rfl
      | .number s => intro h; rfl
      | .quotedString s => intro h; rfl
      | .list ⟨.nil, []⟩ => intro h; rfl
      | .list ⟨.cons hd tl, cc⟩ =>
        intro h
        have h1 : sizeOf (TokenTrees.cons hd tl) < n := by simp at h ⊢; omega
        have e1 := IH1 ind (TokenTrees.cons hd tl) h1
        have e2 := IHi (ind + 1) (anyPrefixComments (TokenTrees.cons hd tl))
          (TokenTrees.cons hd tl) h1
        simp only [fmtValue, e1, e2, fmtComments_nl, addIndent_nl]
      | .list ⟨.nil, c :: cc⟩ =>
        intro h
        simp only [fmtValue, fmtItems, fmtOneLine, fmtComments_nl, addIndent_nl]
      | .map ⟨.nil, []⟩ => intro h; rfl
      | .map ⟨.cons k kv kvs, cc⟩ =>
        intro h
        have h1 : sizeOf (TokenKeyValues.cons k kv kvs) < n := by simp at h ⊢; omega
        have e1 := IHk (ind + 1) (anyKeyPrefixComments (TokenKeyValues.cons k kv kvs))
          (TokenKeyValues.cons k kv kvs) h1
        simp only [fmtValue, e1, fmtComments_nl, addIndent_nl]
      | .map ⟨.nil, c :: cc⟩ =>
        intro h
        simp only [fmtValue, fmtKVItems, fmtComments_nl, addIndent_nl]
      | .variant ⟨nsp, name, .nil, []⟩ => intro h; rfl
      | .variant ⟨nsp, name, .cons ⟨vsp, vpc, .map ⟨.nil, []⟩, vsc⟩ .nil, []⟩ =>
        intro h
        have h1 : sizeOf
            (TokenTrees.cons ⟨vsp, vpc, .map ⟨.nil, []⟩, vsc⟩ .nil) < n := by
          simp at h ⊢; omega
        have e1 := IH1 ind (TokenTrees.cons ⟨vsp, vpc, .map ⟨.nil, []⟩, vsc⟩ .nil) h1
        simp only [fmtValue, e1]
      | .variant ⟨nsp, name, .cons ⟨vsp, vpc, .map ⟨.cons k kv kvs, mcc⟩, vsc⟩ .nil, []⟩ =>
        intro h
        have h1 : sizeOf
            (TokenTrees.cons ⟨vsp, vpc, .map ⟨.cons k kv kvs, mcc⟩, vsc⟩ .nil) < n := by
          simp at h ⊢; omega
        have h2 : sizeOf (TokenKeyValues.cons k kv kvs) < n := by simp at h ⊢; omega
        have e1 := IH1 ind
          (TokenTrees.cons ⟨vsp, vpc, .map ⟨.cons k kv kvs, mcc⟩, vsc⟩ .nil) h1
        have e2 := IHk (ind + 1) (anyKeyPrefixComments (TokenKeyValues.cons k kv kvs))
          (TokenKeyValues.cons k kv kvs) h2
        simp only [fmtValue, e1, e2, fmtComments_nl, addIndent_nl]
      | .variant ⟨nsp, name, .cons ⟨vsp, vpc, .map ⟨.nil, c :: mcc⟩, vsc⟩ .nil, []⟩ =>
        intro h
        have h1 : sizeOf
            (TokenTrees.cons ⟨vsp, vpc, .map ⟨.nil, c :: mcc⟩, vsc⟩ .nil) < n := by
          simp at h ⊢; omega
        have e1 := IH1 ind
          (TokenTrees.cons ⟨vsp, vpc, .map ⟨.nil, c :: mcc⟩, vsc⟩ .nil) h1
        simp only [fmtValue, e1, fmtKVItems, fmtComments_nl, addIndent_nl]
      | .variant ⟨nsp, name, .cons ⟨vsp, vpc, .list ⟨.nil, []⟩, vsc⟩ .nil, []⟩ =>
        intro h
        have h1 : sizeOf
            (TokenTrees.cons ⟨vsp, vpc, .list ⟨.nil, []⟩, vsc⟩ .nil) < n := by
          simp at h ⊢; omega
        have e1 := IH1 ind (TokenTrees.cons ⟨vsp, vpc, .list ⟨.nil, []⟩, vsc⟩ .nil) h1
        simp only [fmtValue, e1]
      | .variant ⟨nsp, name, .cons ⟨vsp, vpc, .list ⟨.cons lv lvs, lcc⟩, vsc⟩ .nil, []⟩ =>
        intro h
        have h1 : sizeOf
            (TokenTrees.cons ⟨vsp, vpc, .list ⟨.cons lv lvs, lcc⟩, vsc⟩ .nil) < n := by
          simp at h ⊢; omega
        have h2 : sizeOf (TokenTrees.cons lv lvs) < n := by simp at h ⊢; omega
        have e1 := IH1 ind
          (TokenTrees.cons ⟨vsp, vpc, .list ⟨.cons lv lvs, lcc⟩, vsc⟩ .nil) h1
        have e2 := IHi (ind + 1) (anyPrefixComments (TokenTrees.cons lv lvs))
          (TokenTrees.cons lv lvs) h2
        simp only [fmtValue, e1, e2, fmtComments_nl, addIndent_nl]
      | .variant ⟨nsp, name, .cons ⟨vsp, vpc, .list ⟨.nil, c :: lcc⟩, vsc⟩ .nil, []⟩ =>
        intro h
        have h1 : sizeOf
            (TokenTrees.cons ⟨vsp, vpc, .list ⟨.nil, c :: lcc⟩, vsc⟩ .nil) < n := by
          simp at h ⊢; omega
        have e1 := IH1 ind
          (TokenTrees.cons ⟨vsp, vpc, .list ⟨.nil, c :: lcc⟩, vsc⟩ .nil) h1
        simp only [fmtValue, e1, fmtItems, fmtComments_nl, addIndent_nl]
      | .variant ⟨nsp, name, .cons ⟨vsp, vpc, .identifier s, vsc⟩ .nil, []⟩ =>
        intro h
        have h1 : sizeOf
            (TokenTrees.cons ⟨vsp, vpc, .identifier s, vsc⟩ .nil) < n := by
          simp at h ⊢; omega
        have e1 := IH1 ind (TokenTrees.cons ⟨vsp, vpc, .identifier s, vsc⟩ .nil) h1
        have e2 := IHi (ind + 1)
          (anyPrefixComments (TokenTrees.cons ⟨vsp, vpc, .identifier s, vsc⟩ .nil))
          (TokenTrees.cons ⟨vsp, vpc, .identifier s, vsc⟩ .nil) h1
        simp only [fmtValue, fmtVariantPlain, e1, e2, fmtComments_nl, addIndent_nl]
      | .variant ⟨nsp, name, .cons ⟨vsp, vpc, .number s, vsc⟩ .nil, []⟩ =>
        intro h
        have h1 : sizeOf
            (TokenTrees.cons ⟨vsp, vpc, .number s, vsc⟩ .nil) < n := by
          simp at h ⊢; omega
        have e1 := IH1 ind (TokenTrees.cons ⟨vsp, vpc, .number s, vsc⟩ .nil) h1
        have e2 := IHi (ind + 1)
          (anyPrefixComments (TokenTrees.cons ⟨vsp, vpc, .number s, vsc⟩ .nil))
          (TokenTrees.cons ⟨vsp, vpc, .number s, vsc⟩ .nil) h1
        simp only [fmtValue, fmtVariantPlain, e1, e2, fmtComments_nl, addIndent_nl]
      | .variant ⟨nsp, name, .cons ⟨vsp, vpc, .quotedString s, vsc⟩ .nil, []⟩ =>
        intro h
        have h1 : sizeOf
            (TokenTrees.cons ⟨vsp, vpc, .quotedString s, vsc⟩ .nil) < n := by
          simp at h ⊢; omega
        have e1 := IH1 ind (TokenTrees.cons ⟨vsp, vpc, .quotedString s, vsc⟩ .nil) h1
        have e2 := IHi (ind + 1)
          (anyPrefixComments (TokenTrees.cons ⟨vsp, vpc, .quotedString s, vsc⟩ .nil))
          (TokenTrees.cons ⟨vsp, vpc, .quotedString s, vsc⟩ .nil) h1
        simp only [fmtValue, fmtVariantPlain, e1, e2, fmtComments_nl, addIndent_nl]
      | .variant ⟨nsp, name, .cons ⟨vsp, vpc, .variant w, vsc⟩ .nil, []⟩ =>
        intro h
        have h1 : sizeOf
            (TokenTrees.cons ⟨vsp, vpc, .variant w, vsc⟩ .nil) < n := by
          simp at h ⊢; omega
        have e1 := IH1 ind (TokenTrees.cons ⟨vsp, vpc, .variant w, vsc⟩ .nil) h1
        have e2 := IHi (ind + 1)
          (anyPrefixComments (TokenTrees.cons ⟨vsp, vpc, .variant w, vsc⟩ .nil))
          (TokenTrees.cons ⟨vsp, vpc, .variant w, vsc⟩ .nil) h1
        simp only [fmtValue, fmtVariantPlain, e1, e2, fmtComments_nl, addIndent_nl]
      | .variant ⟨nsp, name, .cons hd (.cons h2 tl), []⟩ =>
        intro h
        have h1 : sizeOf (TokenTrees.cons hd (.cons h2 tl)) < n := by
          simp at h ⊢; omega
        have e1 := IH1 ind (TokenTrees.cons hd (.cons h2 tl)) h1
        have e2 := IHi (ind + 1) (anyPrefixComments (TokenTrees.cons hd (.cons h2 tl)))
          (TokenTrees.cons hd (.cons h2 tl)) h1
        rw [fmtValue_variant_cons2 (o.with_newline nl), fmtValue_variant_cons2 o]
        simp only [fmtVariantPlain, e1, e2, fmtComments_nl, addIndent_nl]
      | .variant ⟨nsp, name, vs, c :: cc⟩ =>
        intro h
        have h1 : sizeOf vs < n := by simp at h ⊢; omega
        have e1 := IH1 ind vs h1
        have e2 := IHi (ind + 1) (anyPrefixComments vs) vs h1
        rw [fmtValue_variant_cc (o.with_newline nl), fmtValue_variant_cc o]
        simp only [fmtVariantPlain, e1, e2, fmtComments_nl, addIndent_nl]
    · -- fmtOneLine
      match ts with
      | .nil => intro h; rfl
      | .cons ⟨sp, pc, v, sc⟩ .nil =>
        intro h
        have h1 : sizeOf v < n := by simp at h ⊢; omega
        have e1 := IHv ind v h1
        simp only [fmtOneLine, e1]
      | .cons ⟨sp, pc, v, sc⟩ (.cons hd tl) =>
        intro h
        have h1 : sizeOf v < n := by simp at h ⊢; omega
        have h2 : sizeOf (TokenTrees.cons hd tl) < n := by simp at h ⊢; omega
        have e1 := IHv ind v h1
        have e2 := IH1 ind (TokenTrees.cons hd tl) h2
        simp only [fmtOneLine, e1, e2]
    · -- fmtItems
      match ts with
      | .nil => intro h; rfl
      | .cons hd .nil =>
        intro h
        have h1 : sizeOf hd < n := by simp at h ⊢; omega
        have e1 := IHt ind hd h1
        simp only [fmtItems, e1]
      | .cons hd (.cons h2 tl) =>
        intro h
        have ha : sizeOf hd < n := by simp at h ⊢; omega
        have hb : sizeOf (TokenTrees.cons h2 tl) < n := by simp at h ⊢; omega
        have e1 := IHt ind hd ha
        have e2 := IHi ind ab (TokenTrees.cons h2 tl) hb
        simp only [fmtItems, e1, e2]
    · -- fmtKVItems
      match kvs with
      | .nil => intro h; rfl
      | .cons ⟨ksp, kpc, kv, ksc⟩ ⟨vsp2, vpc, vv, vsc⟩ .nil =>
        intro h
        have h1 : sizeOf kv < n := by simp at h ⊢; omega
        have h2 : sizeOf vv < n := by simp at h ⊢; omega
        have e1 := IHv ind kv h1
        have e2 := IHv ind vv h2
        simp only [fmtKVItems, e1, e2, fmtComments_nl, addIndent_nl,
          with_newline_kv_sep]
      | .cons ⟨ksp, kpc, kv, ksc⟩ ⟨vsp2, vpc, vv, vsc⟩ (.cons k2 v2 tl) =>
        intro h
        have h1 : sizeOf kv < n := by simp at h ⊢; omega
        have h2 : sizeOf vv < n := by simp at h ⊢; omega
        have h3 : sizeOf (TokenKeyValues.cons k2 v2 tl) < n := by simp at h ⊢; omega
        have e1 := IHv ind kv h1
        have e2 := IHv ind vv h2
        have e3 := IHk ind ab (TokenKeyValues.cons k2 v2 tl) h3
        simp only [fmtKVItems, e1, e2, e3, fmtComments_nl, addIndent_nl,
          with_newline_kv_sep]

theorem fmtTree_nl (o : FormatOptions) (nl : String) (ind : Nat) (t : TokenTree) :
    fmtTree (o.with_newline nl) ind t = fmtTree o ind t :=
  (fmt_nl_master o nl (sizeOf t + 1)).1 ind t (Nat.lt_succ_self _)

theorem fmtKVItems_nl (o : FormatOptions) (nl : String) (ind : Nat) (ab : Bool)
    (kvs : TokenKeyValues) :
    fmtKVItems (o.with_newline nl) ind ab kvs = fmtKVItems o ind ab kvs :=
  (fmt_nl_master o nl (sizeOf kvs + 1)).2.2.2.2 ind ab kvs (Nat.lt_succ_self _)

theorem fmtMapContent_nl (o : FormatOptions) (nl : String) (ind : Nat)
    (kvs : TokenKeyValues) (cc : List String) :
    fmtMapContent (o.with_newline nl) ind kvs cc = fmtMapContent o ind kvs cc := by
  simp only [fmtMapContent, fmtKVItems_nl, fmtComments_nl]

theorem tokenTree_format_nl (t : TokenTree) (o : FormatOptions) (nl : String) :
    TokenTree.format t (o.with_newline nl) = TokenTree.format t o := by
  have hb : (o.with_newline nl).always_include_outer_braces
      = o.always_include_outer_braces := rfl
  obtain ⟨sp, pc, v, sc⟩ := t
  cases v with
  | identifier s =>
    simp only [TokenTree.format, hb]
    cases o.always_include_outer_braces <;> simp [fmtTree_nl]
  | number s =>
    simp only [TokenTree.format, hb]
    cases o.always_include_outer_braces <;> simp [fmtTree_nl]
  | quotedString s =>
    simp only [TokenTree.format, hb]
    cases o.always_include_outer_braces <;> simp [fmtTree_nl]
  | list l =>
    simp only [TokenTree.format, hb]
    cases o.always_include_outer_braces <;> simp [fmtTree_nl]
  | variant w =>
    simp only [TokenTree.format, hb]
    cases o.always_include_outer_braces <;> simp [fmtTree_nl]
  | map m =>
    obtain ⟨kvs, cc⟩ := m
    simp only [TokenTree.format, hb]
    cases o.always_include_outer_braces with
    | true => simp [fmtTree_nl]
    | false => simp [fmtMapContent_nl, fmtComments_nl]

/-- C8 counterexample: formatting with the newline option set to CRLF
still emits the hard-coded LF; the output of `reformat "a: 1"` under
`newline = "\r\n"` is `"a: 1\n"` and contains no carriage return. -/
theorem c8_counterexample_crlf_ignored :
    reformat "a: 1" ⟨"\t", "\r\n", " ", ": ", false⟩ = .ok ("a: 1" ++ "\n") ∧
    Char.ofNat 13 ∉ ("a: 1" ++ "\n").data :=
  ⟨rfl, by decide⟩

/-- C8 as amended: the formatter never reads the `newline` option; every
line break it emits is the hard-coded `"\n"` (`self.out.push('\n')` in
`format.rs`), so `reformat` is invariant under changing the `newline`
field via `FormatOptions::with_newline`. -/
theorem c8_format_ignores_newline_option (s : String) (o : FormatOptions)
    (nl : String) :
    reformat s (o.with_newline nl) = reformat s o := by
  unfold reformat
  cases parse_str s with
  | error e => rfl
  | ok t => simp only [Except.map, tokenTree_format_nl]

/-! ## Variant commitment in `parse_token_tree` (C4) -/

/-- One step of `parse_token_tree` on an `Identifier` token: the value is
always `TokenValue::Identifier`, even when an open parenthesis follows
directly (the variant check exists only for the string kinds); the
parenthesis is left unconsumed. -/
theorem parse_token_tree_identifier_step (fuel : Nat) (st0 : PState) (depth : Nat)
    (t p : PTok) (rest rest2 : List PTok)
    (hdep : depth < MAX_RECURSION_DEPTH)
    (htoks : st0.toks = t :: rest)
    (hk : t.kind = some .Identifier)
    (hrest : rest = p :: rest2)
    (hp : p.kind = some .OpenParen) :
    parse_token_tree (fuel + 1) st0 depth =
      .ok (⟨some (t.span.union t.span), [], .identifier t.slice, none⟩,
        ⟨st0.source, rest, t.span⟩) := by
  obtain ⟨src, toks0, last0⟩ := st0
  simp only at htoks
  subst htoks
  subst hrest
  obtain ⟨tsp, tsl, tk⟩ := t
  have hk2 : tk = some TokenKind.Identifier := hk
  subst hk2
  obtain ⟨psp, psl, pk⟩ := p
  have hp2 : pk = some TokenKind.OpenParen := hp
  subst hp2
  simp only [parse_token_tree]
  rw [if_neg (by omega)]
  rfl

/-- One step of `parse_token_tree` on a token of any of the four string
kinds followed directly by an open parenthesis: the parser commits to a
variant carrying the token slice as its (quoted) name and the
parenthesised list contents as its values. -/
theorem parse_token_tree_variant_step (fuel : Nat) (st0 : PState) (depth : Nat)
    (t p : PTok) (rest rest2 : List PTok) (l : TokenList) (stA stB : PState)
    (sfx : Option String) (stC : PState)
    (hdep : depth < MAX_RECURSION_DEPTH)
    (htoks : st0.toks = t :: rest)
    (hk : t.kind = some .DoubleQuotedString ∨ t.kind = some .SingleQuotedString ∨
      t.kind = some .MultilineBasicString ∨ t.kind = some .MultilineLiteralString)
    (hrest : rest = p :: rest2)
    (hp : p.kind = some .OpenParen)
    (hl : parse_list_contents fuel ⟨st0.source, rest2, p.span⟩ (depth + 1) = .ok (l, stA))
    (hc : consume_token stA .CloseParen = .ok stB)
    (hs : parse_suffix_comment stB = .ok (sfx, stC)) :
    parse_token_tree (fuel + 1) st0 depth =
      .ok (⟨some (t.span.union stB.lastSpan), [],
        .variant ⟨some t.span, t.slice, l.values, l.closing_comments⟩, sfx⟩, stC) := by
  obtain ⟨src, toks0, last0⟩ := st0
  simp only at htoks hl
  subst htoks
  subst hrest
  obtain ⟨tsp, tsl, tk⟩ := t
  obtain ⟨psp, psl, pk⟩ := p
  have hp2 : pk = some TokenKind.OpenParen := hp
  subst hp2
  simp only at hl
  rcases hk with hk | hk | hk | hk <;>
    (have hk2 := hk; simp only at hk2; subst hk2) <;>
    (simp only [parse_token_tree]
     rw [if_neg (by omega)]
     simp [parse_comments, parseCommentsGo, hl, hc, hs])

/-- C4 counterexample: a bare identifier followed by `(` does NOT parse
as a variant: `Rgb(255, 0, 0)` is rejected (the map attempt fails at the
parenthesis and the list attempt fails the same way, so `parse_str`
errors), while the quoted spelling does parse as a variant. -/
theorem c4_counterexample_bare_identifier_rejected :
    parse_str "Rgb(255, 0, 0)" =
      .error (Error.new_at ⟨3, 4⟩
        ("Expected " ++ TokenKind.Colon.display ++ " but found " ++
          TokenKind.OpenParen.display)) ∧
    parse_str "\"Rgb\"(255, 0, 0)" =
      .ok ⟨some ⟨0, 16⟩, [],
        .variant ⟨some ⟨0, 5⟩, "\"Rgb\"",
          .cons ⟨some ⟨6, 9⟩, [], .number "255", none⟩
            (.cons ⟨some ⟨11, 12⟩, [], .number "0", none⟩
              (.cons ⟨some ⟨14, 15⟩, [], .number "0", none⟩ .nil)), []⟩, none⟩ :=
  ⟨rfl, rfl⟩

/-- C4 as amended: after a token of one of the four string kinds that is
directly followed by `(`, `parse_token_tree` commits to a variant whose
name is the token slice and whose values are the parenthesised list
contents; after an `Identifier` token, however, the result is always
`TokenValue::Identifier` — a following `(` is NOT treated as a variant
opening (it is left unconsumed, and the surrounding parse then fails on
it). -/
theorem c4_variant_commitment :
    (∀ (fuel : Nat) (st0 : PState) (depth : Nat) (t p : PTok) (rest rest2 : List PTok),
      depth < MAX_RECURSION_DEPTH →
      st0.toks = t :: rest →
      t.kind = some .Identifier →
      rest = p :: rest2 →
      p.kind = some .OpenParen →
      parse_token_tree (fuel + 1) st0 depth =
        .ok (⟨some (t.span.union t.span), [], .identifier t.slice, none⟩,
          ⟨st0.source, rest, t.span⟩)) ∧
    (∀ (fuel : Nat) (st0 : PState) (depth : Nat) (t p : PTok) (rest rest2 : List PTok)
      (l : TokenList) (stA stB : PState) (sfx : Option String) (stC : PState),
      depth < MAX_RECURSION_DEPTH →
      st0.toks = t :: rest →
      (t.kind = some .DoubleQuotedString ∨ t.kind = some .SingleQuotedString ∨
        t.kind = some .MultilineBasicString ∨ t.kind = some .MultilineLiteralString) →
      rest = p :: rest2 →
      p.kind = some .OpenParen →
      parse_list_contents fuel ⟨st0.source, rest2, p.span⟩ (depth + 1) = .ok (l, stA) →
      consume_token stA .CloseParen = .ok stB →
      parse_suffix_comment stB = .ok (sfx, stC) →
      parse_token_tree (fuel + 1) st0 depth =
        .ok (⟨some (t.span.union stB.lastSpan), [],
          .variant ⟨some t.span, t.slice, l.values, l.closing_comments⟩, sfx⟩, stC)) :=
  ⟨fun fuel st0 depth t p rest rest2 hdep htoks hk hrest hp =>
      parse_token_tree_identifier_step fuel st0 depth t p rest rest2
        hdep htoks hk hrest hp,
    fun fuel st0 depth t p rest rest2 l stA stB sfx stC hdep htoks hk hrest hp hl hc hs =>
      parse_token_tree_variant_step fuel st0 depth t p rest rest2 l stA stB sfx stC
        hdep htoks hk hrest hp hl hc hs⟩

/-- C4 witness: the amended theorem applied to `Rgb(1)` (identifier, not
a variant; the parenthesis stays in the stream) and to the quoted
spelling (a variant). -/
theorem c4_variant_commitment_witness :
    parse_token_tree 12 (initState "Rgb(1)") 0 =
      .ok (⟨some (Span.union ⟨0, 3⟩ ⟨0, 3⟩), [], .identifier "Rgb", none⟩,
        ⟨(initState "Rgb(1)").source,
          [⟨⟨3, 4⟩, "(", some .OpenParen⟩, ⟨⟨4, 5⟩, "1", some .Number⟩,
            ⟨⟨5, 6⟩, ")", some .CloseParen⟩], ⟨0, 3⟩⟩) ∧
    parse_token_tree 12 (initState "\"Rgb\"(1)") 0 =
      .ok (⟨some (Span.union ⟨0, 5⟩ ⟨7, 8⟩), [],
        .variant ⟨some ⟨0, 5⟩, "\"Rgb\"",
          .cons ⟨some ⟨6, 7⟩, [], .number "1", none⟩ .nil, []⟩, none⟩,
        ⟨(initState "\"Rgb\"(1)").source, [], ⟨7, 8⟩⟩) :=
  ⟨c4_variant_commitment.1 11 (initState "Rgb(1)") 0
      ⟨⟨0, 3⟩, "Rgb", some .Identifier⟩ ⟨⟨3, 4⟩, "(", some .OpenParen⟩
      [⟨⟨3, 4⟩, "(", some .OpenParen⟩, ⟨⟨4, 5⟩, "1", some .Number⟩,
        ⟨⟨5, 6⟩, ")", some .CloseParen⟩]
      [⟨⟨4, 5⟩, "1", some .Number⟩, ⟨⟨5, 6⟩, ")", some .CloseParen⟩]
      (by decide) rfl rfl rfl rfl,
    c4_variant_commitment.2 11 (initState "\"Rgb\"(1)") 0
      ⟨⟨0, 5⟩, "\"Rgb\"", some .DoubleQuotedString⟩ ⟨⟨5, 6⟩, "(", some .OpenParen⟩
      [⟨⟨5, 6⟩, "(", some .OpenParen⟩, ⟨⟨6, 7⟩, "1", some .Number⟩,
        ⟨⟨7, 8⟩, ")", some .CloseParen⟩]
      [⟨⟨6, 7⟩, "1", some .Number⟩, ⟨⟨7, 8⟩, ")", some .CloseParen⟩]
      ⟨.cons ⟨some ⟨6, 7⟩, [], .number "1", none⟩ .nil, []⟩
      ⟨(initState "\"Rgb\"(1)").source,
        [⟨⟨7, 8⟩, ")", some .CloseParen⟩], ⟨6, 7⟩⟩
      ⟨(initState "\"Rgb\"(1)").source, [], ⟨7, 8⟩⟩
      none
      ⟨(initState "\"Rgb\"(1)").source, [], ⟨7, 8⟩⟩
      (by decide) rfl (Or.inl rfl) rfl rfl rfl rfl rfl⟩

/-! ## Top-level single-value unwrapping (C9) -/

/-- C9: when the top-level parse as map contents fails and the whole
input parses as list contents (with nothing trailing), `parse_str`
returns the single value itself when exactly one value resulted, and
otherwise wraps the values as a `List` whose span covers the whole
file. -/
theorem c9_top_level_list_unwrap (s : String) (errA : Error) (stA : PState)
    (l : TokenList) (stB : PState)
    (hm : parse_map_contents (initFuel s) (initState s) 0 = .error (errA, stA))
    (hl : parse_list_contents (initFuel s) (initState s) 0 = .ok (l, stB))
    (ht : stB.toks = []) :
    (∀ v, l.values = .cons v .nil → parse_str s = .ok v) ∧
    (l.values.length ≠ 1 →
      parse_str s = .ok ⟨some ⟨0, s.data.length⟩, [],
        .list ⟨l.values, l.closing_comments⟩, none⟩) := by
  obtain ⟨srcB, toksB, lastB⟩ := stB
  simp only at ht
  subst ht
  obtain ⟨vs, cc⟩ := l
  simp only [TokenList.values, TokenList.closing_comments]
  constructor
  · intro v hv
    subst hv
    simp [parse_str, parse_top_str, hm, hl, check_for_trailing_tokens]
  · intro hlen
    cases vs with
    | nil => simp [parse_str, parse_top_str, hm, hl, check_for_trailing_tokens]
    | cons v tl =>
      cases tl with
      | nil => simp [TokenTrees.length] at hlen
      | cons v2 tl2 =>
        simp [parse_str, parse_top_str, hm, hl, check_for_trailing_tokens]

/-- C9 witness: a file containing just `42` parses as that single number
value, not as a one-element list. -/
theorem c9_top_level_list_unwrap_witness :
    parse_str "42" = .ok ⟨some ⟨0, 2⟩, [], .number "42", none⟩ :=
  (c9_top_level_list_unwrap "42"
    (Error.new_at ⟨0, 2⟩
      ("Expected " ++ TokenKind.Colon.display ++ " but reached end of input"))
    ⟨(initState "42").source, [], ⟨0, 2⟩⟩
    ⟨.cons ⟨some ⟨0, 2⟩, [], .number "42", none⟩ .nil, []⟩
    ⟨(initState "42").source, [], ⟨0, 2⟩⟩
    rfl rfl rfl).1 ⟨some ⟨0, 2⟩, [], .number "42", none⟩ rfl

/-! ## Recursion-depth safety (C6) -/

/-- The lexer on a run of `[` characters: one `OpenList` token per
character. -/
theorem lexLoop_brackets :
    ∀ k fuel pos, k ≤ fuel →
      lexLoop fuel (List.replicate k '[') pos = openToks pos k := by
  intro k
  induction k with
  | zero =>
    intro fuel pos _
    cases fuel <;> simp [lexLoop, openToks]
  | succ k IH =>
    intro fuel pos hk
    obtain ⟨f, rfl⟩ : ∃ f, fuel = f + 1 := ⟨fuel - 1, by omega⟩
    simp only [List.replicate_succ, lexLoop]
    rw [if_neg (by decide)]
    simp [nextTokenKindLen, openToks]
    exact IH f (pos + 1) (by omega)

/-- `tokenize` of `n` open brackets. -/
theorem tokenize_brackets (n : Nat) :
    tokenize (String.mk (List.replicate n '[')) = openToks 0 n := by
  have : (String.mk (List.replicate n '[')).data = List.replicate n '[' := rfl
  simp only [tokenize, this, List.length_replicate]
  exact lexLoop_brackets n (n + 1) 0 (by omega)

/-- The innermost step: `parse_token_tree` at depth 127 consumes bracket
64 and the nested call at depth 129 trips the `MAX_RECURSION_DEPTH`
check, an error spanned at the 64th bracket (offsets 63..64). -/
theorem ptt_bracket_base (src : List Char) (r g : Nat) (hr : 1 ≤ r) (last : Span) :
    parse_token_tree (g + 3) ⟨src, openToks 63 (r + 1), last⟩ 127 =
      .error (Error.new_at ⟨63, 64⟩
          "Maximum recursion depth exceeded while parsing document",
        ⟨src, openToks 64 r, ⟨63, 64⟩⟩) := by
  obtain ⟨r2, rfl⟩ : ∃ r2, r = r2 + 1 := ⟨r - 1, by omega⟩
  simp [parse_token_tree, parse_list_contents, parse_comments, parseCommentsGo,
    peekIsCloseOrNone, openToks, MAX_RECURSION_DEPTH]

/-- One outer step of the bracket chain: consuming one more bracket
wraps the nested error unchanged (each bracket costs two depth levels:
`parse_token_tree` and `parse_list_contents`). -/
theorem ptt_bracket_step (src : List Char) (j : Nat) (hj : j ≤ 62) (r : Nat)
    (hr : 1 ≤ r) (g : Nat) (last : Span) (E : Error × PState)
    (hnext : parse_token_tree g ⟨src, openToks (j + 1) r, ⟨j, j + 1⟩⟩ (2 * j + 3) =
      .error E) :
    parse_token_tree (g + 2) ⟨src, openToks j (r + 1), last⟩ (2 * j + 1) =
      .error E := by
  obtain ⟨r2, rfl⟩ : ∃ r2, r = r2 + 1 := ⟨r - 1, by omega⟩
  simp only [openToks] at hnext
  have h1 : 2 * j + 1 + 1 + 1 = 2 * j + 3 := by omega
  simp only [openToks, parse_token_tree]
  rw [if_neg (by simp only [MAX_RECURSION_DEPTH]; omega)]
  simp only [parse_comments, parseCommentsGo, parse_list_contents,
    peekIsCloseOrNone, openToks]
  simp only [h1]
  simp [hnext, openToks, parse_comments, parseCommentsGo, peekIsCloseOrNone]

/-- The bracket chain: from `64 - m` brackets consumed, with enough
brackets remaining, the parse of a bracket run always ends in the
recursion-depth error raised at the 64th bracket. -/
theorem ptt_bracket_chain (src : List Char) (rr : Nat) (hrr : 1 ≤ rr) :
    ∀ m, m ≤ 63 → ∀ g last, 2 * m + 3 ≤ g →
      parse_token_tree g ⟨src, openToks (63 - m) (rr + m + 1), last⟩
          (2 * (63 - m) + 1) =
        .error (Error.new_at ⟨63, 64⟩
            "Maximum recursion depth exceeded while parsing document",
          ⟨src, openToks 64 rr, ⟨63, 64⟩⟩) := by
  intro m
  induction m with
  | zero =>
    intro _ g last hg
    obtain ⟨g2, rfl⟩ : ∃ g2, g = g2 + 3 := ⟨g - 3, by omega⟩
    have h0 : (63 : Nat) - 0 = 63 := rfl
    have hd : 2 * ((63 : Nat) - 0) + 1 = 127 := rfl
    rw [h0, hd]
    exact ptt_bracket_base src rr g2 hrr last
  | succ m IH =>
    intro hm g last hg
    obtain ⟨g2, rfl⟩ : ∃ g2, g = g2 + 2 := ⟨g - 2, by omega⟩
    have hj : 63 - (m + 1) + 1 = 63 - m := by omega
    have hcnt : rr + (m + 1) + 1 = (rr + m + 1) + 1 := by omega
    have hdep : 2 * (63 - (m + 1)) + 3 = 2 * (63 - m) + 1 := by omega
    have hnext : parse_token_tree g2
        ⟨src, openToks (63 - (m + 1) + 1) (rr + m + 1),
          ⟨63 - (m + 1), 63 - (m + 1) + 1⟩⟩ (2 * (63 - (m + 1)) + 3) =
        .error (Error.new_at ⟨63, 64⟩
            "Maximum recursion depth exceeded while parsing document",
          ⟨src, openToks 64 rr, ⟨63, 64⟩⟩) := by
      rw [hj, hdep]
      exact IH (by omega) g2 _ (by omega)
    rw [hcnt]
    exact ptt_bracket_step src (63 - (m + 1)) (by omega) (rr + m + 1) (by omega)
      g2 last _ hnext

/-- Length of a lexed bracket run. -/
theorem openToks_length : ∀ k pos, (openToks pos k).length = k
  | 0, _ => rfl
  | k + 1, pos => by simp [openToks, openToks_length k (pos + 1)]

/-- The speculative top-level map parse on a bracket run propagates the
recursion error of the value chain. -/
theorem pmc_top (src : List Char) (c g : Nat) (hc : 1 ≤ c) (last : Span)
    (E : Error × PState)
    (h : parse_token_tree g ⟨src, openToks 0 c, last⟩ 1 = .error E) :
    parse_map_contents (g + 1) ⟨src, openToks 0 c, last⟩ 0 = .error E := by
  obtain ⟨c2, rfl⟩ : ∃ c2, c = c2 + 1 := ⟨c - 1, by omega⟩
  simp only [openToks] at h ⊢
  simp [parse_map_contents, parse_comments, parseCommentsGo, peekIsCloseOrNone, h]

/-- The speculative top-level list parse on a bracket run propagates the
recursion error of the value chain. -/
theorem plc_top (src : List Char) (c g : Nat) (hc : 1 ≤ c) (last : Span)
    (E : Error × PState)
    (h : parse_token_tree g ⟨src, openToks 0 c, last⟩ 1 = .error E) :
    parse_list_contents (g + 1) ⟨src, openToks 0 c, last⟩ 0 = .error E := by
  obtain ⟨c2, rfl⟩ : ∃ c2, c = c2 + 1 := ⟨c - 1, by omega⟩
  simp only [openToks] at h ⊢
  simp [parse_list_contents, parse_comments, parseCommentsGo, peekIsCloseOrNone, h]

/-- C6: for any run of at least 65 open brackets (in particular 1000),
`parse_str` returns the dedicated maximum-recursion-depth error instead
of overflowing: every nested call increments the depth counter, and the
check `MAX_RECURSION_DEPTH <= recurse_depth` fires at the 64th bracket
(two depth levels per bracket), producing the error spanned at offsets
63..64. -/
theorem c6_recursion_depth_guard (n : Nat) (hn : 65 ≤ n) :
    parse_str (String.mk (List.replicate n '[')) =
      .error (Error.new_at ⟨63, 64⟩
        "Maximum recursion depth exceeded while parsing document") := by
  have htok : tokenize (String.mk (List.replicate n '[')) = openToks 0 n :=
    tokenize_brackets n
  have hsrc : (String.mk (List.replicate n '[')).data = List.replicate n '[' := rfl
  have hch : parse_token_tree (2 * n + 1)
      ⟨List.replicate n '[', openToks 0 n, ⟨0, 0⟩⟩ 1 =
      .error (Error.new_at ⟨63, 64⟩
          "Maximum recursion depth exceeded while parsing document",
        ⟨List.replicate n '[', openToks 64 (n - 64), ⟨63, 64⟩⟩) := by
    have h := ptt_bracket_chain (List.replicate n '[') (n - 64) (by omega) 63
      (by omega) (2 * n + 1) ⟨0, 0⟩ (by omega)
    have e2 : n - 64 + 63 + 1 = n := by omega
    rw [e2] at h
    simpa using h
  have hmap := pmc_top (List.replicate n '[') n (2 * n + 1) (by omega) ⟨0, 0⟩ _ hch
  have hlist := plc_top (List.replicate n '[') n (2 * n + 1) (by omega) ⟨0, 0⟩ _ hch
  have hfuel2 : 2 * n + 2 = (2 * n + 1) + 1 := by omega
  simp only [parse_str, parse_top_str, initState, initFuel, htok, hsrc,
    openToks_length, hfuel2, hmap, hlist]
  simp

/-- C6 witness: the amended theorem applied to the spec's concrete input
of 1000 brackets. -/
theorem c6_recursion_depth_guard_witness :
    parse_str (String.mk (List.replicate 1000 '[')) =
      .error (Error.new_at ⟨63, 64⟩
        "Maximum recursion depth exceeded while parsing document") :=
  c6_recursion_depth_guard 1000 (by omega)

/-! ## Invalid lexer items make the parse fail (C10) -/

theorem Consumed.refl (st : PState) : Consumed st st :=
  ⟨[], by simp, by simp [allOk]⟩

theorem Consumed.trans {st1 st2 st3 : PState}
    (h1 : Consumed st1 st2) (h2 : Consumed st2 st3) : Consumed st1 st3 := by
  obtain ⟨u, hu, hu2⟩ := h1
  obtain ⟨v, hv, hv2⟩ := h2
  refine ⟨u ++ v, by simp [hu, hv], ?_⟩
  intro t ht
  rcases List.mem_append.1 ht with h | h
  · exact hu2 t h
  · exact hv2 t h

/-- `parse_comments` consumes only comment tokens. -/
theorem parseCommentsGo_consumed :
    ∀ (toks : List PTok) (last : Span),
      ∃ u, toks = u ++ (parseCommentsGo toks last).2.1 ∧ allOk u
  | [], last => ⟨[], by simp [parseCommentsGo], by simp [allOk]⟩
  | t :: rest, last => by
    by_cases h : t.kind = some .Comment
    · obtain ⟨u, hu, hu2⟩ := parseCommentsGo_consumed rest t.span
      refine ⟨t :: u, ?_, ?_⟩
      · simp [parseCommentsGo, h]
        exact hu
      · intro x hx
        rcases List.mem_cons.1 hx with rfl | hx
        · simp [h]
        · exact hu2 x hx
    · exact ⟨[], by simp [parseCommentsGo, h], by simp [allOk]⟩

theorem parse_comments_consumed (st : PState) :
    Consumed st (parse_comments st).2 := by
  obtain ⟨u, hu, hu2⟩ := parseCommentsGo_consumed st.toks st.lastSpan
  exact ⟨u, by simpa [parse_comments] using hu, hu2⟩

/-- A successful `consume_token` consumes one successfully lexed token. -/
theorem consume_token_consumed {st : PState} {k : TokenKind} {st2 : PState}
    (h : consume_token st k = .ok st2) : Consumed st st2 := by
  obtain ⟨src, toks, last⟩ := st
  unfold consume_token at h
  match toks with
  | [] => exact absurd h (by simp)
  | t :: rest =>
    simp only at h
    match hk : t.kind with
    | none => rw [hk] at h; exact absurd h (by simp)
    | some k2 =>
      rw [hk] at h
      simp only at h
      by_cases he : k2 = k
      · rw [if_pos he] at h
        obtain rfl : st2 = ⟨src, rest, t.span⟩ := by cases h; rfl
        exact ⟨[t], by simp, by simp [allOk, hk]⟩
      · rw [if_neg he] at h; exact absurd h (by simp)

/-- `parse_suffix_comment` consumes at most one comment token. -/
theorem parse_suffix_comment_consumed {st : PState} {sfx : Option String}
    {st2 : PState} (h : parse_suffix_comment st = .ok (sfx, st2)) :
    Consumed st st2 := by
  obtain ⟨src, toks, last⟩ := st
  unfold parse_suffix_comment at h
  match toks with
  | [] =>
    obtain rfl : st2 = ⟨src, [], last⟩ := by cases h; rfl
    exact Consumed.refl _
  | t :: rest =>
    simp only at h
    by_cases hk : t.kind = some .Comment
    · rw [if_pos hk] at h
      by_cases hnl : (sliceBetween src last.stop t.span.start).contains '\n'
      · rw [if_pos hnl] at h
        obtain rfl : st2 = ⟨src, t :: rest, last⟩ := by cases h; rfl
        exact Consumed.refl _
      · rw [if_neg hnl] at h
        obtain rfl : st2 = ⟨src, rest, t.span⟩ := by cases h; rfl
        exact ⟨[t], by simp, by simp [allOk, hk]⟩
    · rw [if_neg hk] at h
      obtain rfl : st2 = ⟨src, t :: rest, last⟩ := by cases h; rfl
      exact Consumed.refl _

/-- Any successful run of the parser consumes only successfully lexed
tokens: the state after a success holds a suffix of the token stream and
every consumed token has a kind. -/
theorem parser_consumed :
    ∀ fuel : Nat,
      (∀ st0 depth v st2, parse_token_tree fuel st0 depth = .ok (v, st2) →
        Consumed st0 st2) ∧
      (∀ st0 depth l st2, parse_list_contents fuel st0 depth = .ok (l, st2) →
        Consumed st0 st2) ∧
      (∀ st0 depth m st2, parse_map_contents fuel st0 depth = .ok (m, st2) →
        Consumed st0 st2) := by
  intro fuel
  induction fuel with
  | zero =>
    refine ⟨fun st0 depth v st2 h => ?_, fun st0 depth l st2 h => ?_,
      fun st0 depth m st2 h => ?_⟩
    · exact absurd h (by simp [parse_token_tree])
    · exact absurd h (by simp [parse_list_contents])
    · exact absurd h (by simp [parse_map_contents])
  | succ f IH =>
    obtain ⟨IHt, IHl, IHm⟩ := IH
    refine ⟨fun st0 depth v st2 h => ?_, fun st0 depth l st2 h => ?_,
      fun st0 depth m st2 h => ?_⟩
    · -- parse_token_tree
      by_cases hd : MAX_RECURSION_DEPTH ≤ depth
      · simp only [parse_token_tree] at h
        rw [if_pos hd] at h
        exact absurd h (by simp)
      · simp only [parse_token_tree] at h
        rw [if_neg hd] at h
        rcases hE : parse_comments st0 with ⟨pcs, st1⟩
        rw [hE] at h
        simp only at h
        have hC0 : Consumed st0 st1 := by
          have h2 := parse_comments_consumed st0
          rwa [hE] at h2
        rcases hT : st1.toks with _ | ⟨t, rest⟩
        · rw [hT] at h; exact absurd h (by simp)
        rw [hT] at h
        simp only at h
        rcases hK : t.kind with _ | k
        · rw [hK] at h; exact absurd h (by simp)
        rw [hK] at h
        simp only at h
        have hC1 : Consumed st1 ⟨st1.source, rest, t.span⟩ :=
          ⟨[t], by simp [hT], by simp [allOk, hK]⟩
        cases k with
        | OpenList =>
          simp only at h
          rcases hA : parse_list_contents f ⟨st1.source, rest, t.span⟩ (depth + 1)
            with es | ⟨lv, stA⟩
          · rw [hA] at h; exact absurd h (by simp)
          rw [hA] at h
          simp only at h
          rcases hB : consume_token stA .CloseList with es | stB
          · rw [hB] at h; exact absurd h (by simp)
          rw [hB] at h
          simp only at h
          rcases hS : parse_suffix_comment stB with es | ⟨sfx, st3⟩
          · rw [hS] at h; exact absurd h (by simp)
          rw [hS] at h
          simp only [Except.ok.injEq, Prod.mk.injEq] at h
          obtain ⟨-, rfl⟩ := h
          exact hC0.trans (hC1.trans ((IHl _ _ _ _ hA).trans
            ((consume_token_consumed hB).trans (parse_suffix_comment_consumed hS))))
        | OpenBrace =>
          simp only at h
          rcases hA : parse_map_contents f ⟨st1.source, rest, t.span⟩ (depth + 1)
            with es | ⟨lv, stA⟩
          · rw [hA] at h; exact absurd h (by simp)
          rw [hA] at h
          simp only at h
          rcases hB : consume_token stA .CloseBrace with es | stB
          · rw [hB] at h; exact absurd h (by simp)
          rw [hB] at h
          simp only at h
          rcases hS : parse_suffix_comment stB with es | ⟨sfx, st3⟩
          · rw [hS] at h; exact absurd h (by simp)
          rw [hS] at h
          simp only [Except.ok.injEq, Prod.mk.injEq] at h
          obtain ⟨-, rfl⟩ := h
          exact hC0.trans (hC1.trans ((IHm _ _ _ _ hA).trans
            ((consume_token_consumed hB).trans (parse_suffix_comment_consumed hS))))
        | Identifier =>
          simp only at h
          rcases hS : parse_suffix_comment ⟨st1.source, rest, t.span⟩
            with es | ⟨sfx, st3⟩
          · rw [hS] at h; exact absurd h (by simp)
          rw [hS] at h
          simp only [Except.ok.injEq, Prod.mk.injEq] at h
          obtain ⟨-, rfl⟩ := h
          exact hC0.trans (hC1.trans (parse_suffix_comment_consumed hS))
        | Number =>
          simp only at h
          rcases hS : parse_suffix_comment ⟨st1.source, rest, t.span⟩
            with es | ⟨sfx, st3⟩
          · rw [hS] at h; exact absurd h (by simp)
          rw [hS] at h
          simp only [Except.ok.injEq, Prod.mk.injEq] at h
          obtain ⟨-, rfl⟩ := h
          exact hC0.trans (hC1.trans (parse_suffix_comment_consumed hS))
        | Comment => simp only at h; exact absurd h (by simp)
        | CloseList => simp only at h; exact absurd h (by simp)
        | CloseBrace => simp only at h; exact absurd h (by simp)
        | CloseParen => simp only at h; exact absurd h (by simp)
        | OpenParen => simp only at h; exact absurd h (by simp)
        | Colon => simp only at h; exact absurd h (by simp)
        | Comma => simp only at h; exact absurd h (by simp)
        | DoubleQuotedString =>
          simp only at h
          rcases hR : rest with _ | ⟨p, rest2⟩
          · rw [hR] at h
            simp only at h
            rcases hS : parse_suffix_comment ⟨st1.source, [], t.span⟩
              with es | ⟨sfx, st3⟩
            · rw [hS] at h; exact absurd h (by simp)
            rw [hS] at h
            simp only [Except.ok.injEq, Prod.mk.injEq] at h
            obtain ⟨-, rfl⟩ := h
            have hC1b : Consumed st1 ⟨st1.source, [], t.span⟩ :=
              ⟨[t], by simp [hT, hR], by simp [allOk, hK]⟩
            exact hC0.trans (hC1b.trans (parse_suffix_comment_consumed hS))
          rw [hR] at h
          simp only at h
          by_cases hPK : p.kind = some TokenKind.OpenParen
          · rw [if_pos hPK] at h
            rcases hA : parse_list_contents f ⟨st1.source, rest2, p.span⟩ (depth + 1)
              with es | ⟨lv, stA⟩
            · rw [hA] at h; exact absurd h (by simp)
            rw [hA] at h
            simp only at h
            rcases hB : consume_token stA .CloseParen with es | stB
            · rw [hB] at h; exact absurd h (by simp)
            rw [hB] at h
            simp only at h
            rcases hS : parse_suffix_comment stB with es | ⟨sfx, st3⟩
            · rw [hS] at h; exact absurd h (by simp)
            rw [hS] at h
            simp only [Except.ok.injEq, Prod.mk.injEq] at h
            obtain ⟨-, rfl⟩ := h
            have hC2 : Consumed st1 ⟨st1.source, rest2, p.span⟩ :=
              ⟨[t, p], by simp [hT, hR], by simp [allOk, hK, hPK]⟩
            exact hC0.trans (hC2.trans ((IHl _ _ _ _ hA).trans
              ((consume_token_consumed hB).trans (parse_suffix_comment_consumed hS))))
          · rw [if_neg hPK] at h
            simp only at h
            rcases hS : parse_suffix_comment ⟨st1.source, p :: rest2, t.span⟩
              with es | ⟨sfx, st3⟩
            · rw [hS] at h; exact absurd h (by simp)
            rw [hS] at h
            simp only [Except.ok.injEq, Prod.mk.injEq] at h
            obtain ⟨-, rfl⟩ := h
            have hC1b : Consumed st1 ⟨st1.source, p :: rest2, t.span⟩ :=
              ⟨[t], by simp [hT, hR], by simp [allOk, hK]⟩
            exact hC0.trans (hC1b.trans (parse_suffix_comment_consumed hS))
        | SingleQuotedString =>
          simp only at h
          rcases hR : rest with _ | ⟨p, rest2⟩
          · rw [hR] at h
            simp only at h
            rcases hS : parse_suffix_comment ⟨st1.source, [], t.span⟩
              with es | ⟨sfx, st3⟩
            · rw [hS] at h; exact absurd h (by simp)
            rw [hS] at h
            simp only [Except.ok.injEq, Prod.mk.injEq] at h
            obtain ⟨-, rfl⟩ := h
            have hC1b : Consumed st1 ⟨st1.source, [], t.span⟩ :=
              ⟨[t], by simp [hT, hR], by simp [allOk, hK]⟩
            exact hC0.trans (hC1b.trans (parse_suffix_comment_consumed hS))
          rw [hR] at h
          simp only at h
          by_cases hPK : p.kind = some TokenKind.OpenParen
          · rw [if_pos hPK] at h
            rcases hA : parse_list_contents f ⟨st1.source, rest2, p.span⟩ (depth + 1)
              with es | ⟨lv, stA⟩
            · rw [hA] at h; exact absurd h (by simp)
            rw [hA] at h
            simp only at h
            rcases hB : consume_token stA .CloseParen with es | stB
            · rw [hB] at h; exact absurd h (by simp)
            rw [hB] at h
            simp only at h
            rcases hS : parse_suffix_comment stB with es | ⟨sfx, st3⟩
            · rw [hS] at h; exact absurd h (by simp)
            rw [hS] at h
            simp only [Except.ok.injEq, Prod.mk.injEq] at h
            obtain ⟨-, rfl⟩ := h
            have hC2 : Consumed st1 ⟨st1.source, rest2, p.span⟩ :=
              ⟨[t, p], by simp [hT, hR], by simp [allOk, hK, hPK]⟩
            exact hC0.trans (hC2.trans ((IHl _ _ _ _ hA).trans
              ((consume_token_consumed hB).trans (parse_suffix_comment_consumed hS))))
          · rw [if_neg hPK] at h
            simp only at h
            rcases hS : parse_suffix_comment ⟨st1.source, p :: rest2, t.span⟩
              with es | ⟨sfx, st3⟩
            · rw [hS] at h; exact absurd h (by simp)
            rw [hS] at h
            simp only [Except.ok.injEq, Prod.mk.injEq] at h
            obtain ⟨-, rfl⟩ := h
            have hC1b : Consumed st1 ⟨st1.source, p :: rest2, t.span⟩ :=
              ⟨[t], by simp [hT, hR], by simp [allOk, hK]⟩
            exact hC0.trans (hC1b.trans (parse_suffix_comment_consumed hS))
        | MultilineBasicString =>
          simp only at h
          rcases hR : rest with _ | ⟨p, rest2⟩
          · rw [hR] at h
            simp only at h
            rcases hS : parse_suffix_comment ⟨st1.source, [], t.span⟩
              with es | ⟨sfx, st3⟩
            · rw [hS] at h; exact absurd h (by simp)
            rw [hS] at h
            simp only [Except.ok.injEq, Prod.mk.injEq] at h
            obtain ⟨-, rfl⟩ := h
            have hC1b : Consumed st1 ⟨st1.source, [], t.span⟩ :=
              ⟨[t], by simp [hT, hR], by simp [allOk, hK]⟩
            exact hC0.trans (hC1b.trans (parse_suffix_comment_consumed hS))
          rw [hR] at h
          simp only at h
          by_cases hPK : p.kind = some TokenKind.OpenParen
          · rw [if_pos hPK] at h
            rcases hA : parse_list_contents f ⟨st1.source, rest2, p.span⟩ (depth + 1)
              with es | ⟨lv, stA⟩
            · rw [hA] at h; exact absurd h (by simp)
            rw [hA] at h
            simp only at h
            rcases hB : consume_token stA .CloseParen with es | stB
            · rw [hB] at h; exact absurd h (by simp)
            rw [hB] at h
            simp only at h
            rcases hS : parse_suffix_comment stB with es | ⟨sfx, st3⟩
            · rw [hS] at h; exact absurd h (by simp)
            rw [hS] at h
            simp only [Except.ok.injEq, Prod.mk.injEq] at h
            obtain ⟨-, rfl⟩ := h
            have hC2 : Consumed st1 ⟨st1.source, rest2, p.span⟩ :=
              ⟨[t, p], by simp [hT, hR], by simp [allOk, hK, hPK]⟩
            exact hC0.trans (hC2.trans ((IHl _ _ _ _ hA).trans
              ((consume_token_consumed hB).trans (parse_suffix_comment_consumed hS))))
          · rw [if_neg hPK] at h
            simp only at h
            rcases hS : parse_suffix_comment ⟨st1.source, p :: rest2, t.span⟩
              with es | ⟨sfx, st3⟩
            · rw [hS] at h; exact absurd h (by simp)
            rw [hS] at h
            simp only [Except.ok.injEq, Prod.mk.injEq] at h
            obtain ⟨-, rfl⟩ := h
            have hC1b : Consumed st1 ⟨st1.source, p :: rest2, t.span⟩ :=
              ⟨[t], by simp [hT, hR], by simp [allOk, hK]⟩
            exact hC0.trans (hC1b.trans (parse_suffix_comment_consumed hS))
        | MultilineLiteralString =>
          simp only at h
          rcases hR : rest with _ | ⟨p, rest2⟩
          · rw [hR] at h
            simp only at h
            rcases hS : parse_suffix_comment ⟨st1.source, [], t.span⟩
              with es | ⟨sfx, st3⟩
            · rw [hS] at h; exact absurd h (by simp)
            rw [hS] at h
            simp only [Except.ok.injEq, Prod.mk.injEq] at h
            obtain ⟨-, rfl⟩ := h
            have hC1b : Consumed st1 ⟨st1.source, [], t.span⟩ :=
              ⟨[t], by simp [hT, hR], by simp [allOk, hK]⟩
            exact hC0.trans (hC1b.trans (parse_suffix_comment_consumed hS))
          rw [hR] at h
          simp only at h
          by_cases hPK : p.kind = some TokenKind.OpenParen
          · rw [if_pos hPK] at h
            rcases hA : parse_list_contents f ⟨st1.source, rest2, p.span⟩ (depth + 1)
              with es | ⟨lv, stA⟩
            · rw [hA] at h; exact absurd h (by simp)
            rw [hA] at h
            simp only at h
            rcases hB : consume_token stA .CloseParen with es | stB
            · rw [hB] at h; exact absurd h (by simp)
            rw [hB] at h
            simp only at h
            rcases hS : parse_suffix_comment stB with es | ⟨sfx, st3⟩
            · rw [hS] at h; exact absurd h (by simp)
            rw [hS] at h
            simp only [Except.ok.injEq, Prod.mk.injEq] at h
            obtain ⟨-, rfl⟩ := h
            have hC2 : Consumed st1 ⟨st1.source, rest2, p.span⟩ :=
              ⟨[t, p], by simp [hT, hR], by simp [allOk, hK, hPK]⟩
            exact hC0.trans (hC2.trans ((IHl _ _ _ _ hA).trans
              ((consume_token_consumed hB).trans (parse_suffix_comment_consumed hS))))
          · rw [if_neg hPK] at h
            simp only at h
            rcases hS : parse_suffix_comment ⟨st1.source, p :: rest2, t.span⟩
              with es | ⟨sfx, st3⟩
            · rw [hS] at h; exact absurd h (by simp)
            rw [hS] at h
            simp only [Except.ok.injEq, Prod.mk.injEq] at h
            obtain ⟨-, rfl⟩ := h
            have hC1b : Consumed st1 ⟨st1.source, p :: rest2, t.span⟩ :=
              ⟨[t], by simp [hT, hR], by simp [allOk, hK]⟩
            exact hC0.trans (hC1b.trans (parse_suffix_comment_consumed hS))
    · -- parse_list_contents
      simp only [parse_list_contents] at h
      rcases hE : parse_comments st0 with ⟨pcs, st1⟩
      rw [hE] at h
      simp only at h
      have hC0 : Consumed st0 st1 := by
        have h2 := parse_comments_consumed st0
        rwa [hE] at h2
      by_cases hP : peekIsCloseOrNone st1 = true
      · rw [if_pos hP] at h
        simp only [Except.ok.injEq, Prod.mk.injEq] at h
        obtain ⟨-, rfl⟩ := h
        exact hC0
      · rw [if_neg hP] at h
        rcases hA : parse_token_tree f st1 (depth + 1) with es | ⟨v1, stA⟩
        · rw [hA] at h; exact absurd h (by simp)
        rw [hA] at h
        simp only at h
        have hCA : Consumed st0 stA := hC0.trans (IHt _ _ _ _ hA)
        rcases hT2 : stA.toks with _ | ⟨p, rest⟩
        · rw [hT2] at h
          simp only at h
          rcases hB : parse_list_contents f stA depth with es | ⟨tl, stB⟩
          · rw [hB] at h; exact absurd h (by simp)
          rw [hB] at h
          simp only [Except.ok.injEq, Prod.mk.injEq] at h
          obtain ⟨-, rfl⟩ := h
          exact hCA.trans (IHl _ _ _ _ hB)
        rw [hT2] at h
        simp only at h
        by_cases hPK : p.kind = some TokenKind.Comma
        · rw [if_pos hPK] at h
          rcases hS : parse_suffix_comment ⟨stA.source, rest, p.span⟩
            with es | ⟨sfx, stS⟩
          · rw [hS] at h; exact absurd h (by simp)
          rw [hS] at h
          simp only at h
          rcases hB : parse_list_contents f stS depth with es | ⟨tl, stB⟩
          · rw [hB] at h; exact absurd h (by simp)
          rw [hB] at h
          simp only [Except.ok.injEq, Prod.mk.injEq] at h
          obtain ⟨-, rfl⟩ := h
          have hComma : Consumed stA ⟨stA.source, rest, p.span⟩ :=
            ⟨[p], by simp [hT2], by simp [allOk, hPK]⟩
          exact hCA.trans (hComma.trans ((parse_suffix_comment_consumed hS).trans
            (IHl _ _ _ _ hB)))
        · rw [if_neg hPK] at h
          simp only at h
          rcases hB : parse_list_contents f stA depth with es | ⟨tl, stB⟩
          · rw [hB] at h; exact absurd h (by simp)
          rw [hB] at h
          simp only [Except.ok.injEq, Prod.mk.injEq] at h
          obtain ⟨-, rfl⟩ := h
          exact hCA.trans (IHl _ _ _ _ hB)
    · -- parse_map_contents
      simp only [parse_map_contents] at h
      rcases hE : parse_comments st0 with ⟨pcs, st1⟩
      rw [hE] at h
      simp only at h
      have hC0 : Consumed st0 st1 := by
        have h2 := parse_comments_consumed st0
        rwa [hE] at h2
      by_cases hP : peekIsCloseOrNone st1 = true
      · rw [if_pos hP] at h
        simp only [Except.ok.injEq, Prod.mk.injEq] at h
        obtain ⟨-, rfl⟩ := h
        exact hC0
      · rw [if_neg hP] at h
        rcases hA : parse_token_tree f st1 (depth + 1) with es | ⟨k1, stA⟩
        · rw [hA] at h; exact absurd h (by simp)
        rw [hA] at h
        simp only at h
        rcases hCo : consume_token stA .Colon with es | stCo
        · rw [hCo] at h; exact absurd h (by simp)
        rw [hCo] at h
        simp only at h
        rcases hV : parse_token_tree f stCo (depth + 1) with es | ⟨v1, stV⟩
        · rw [hV] at h; exact absurd h (by simp)
        rw [hV] at h
        simp only at h
        have hCV : Consumed st0 stV :=
          hC0.trans ((IHt _ _ _ _ hA).trans
            ((consume_token_consumed hCo).trans (IHt _ _ _ _ hV)))
        rcases hT2 : stV.toks with _ | ⟨p, rest⟩
        · rw [hT2] at h
          simp only at h
          rcases hB : parse_map_contents f stV depth with es | ⟨tl, stB⟩
          · rw [hB] at h; exact absurd h (by simp)
          rw [hB] at h
          rcases tl with ⟨kvs, cc⟩
          simp only [Except.ok.injEq, Prod.mk.injEq] at h
          obtain ⟨-, rfl⟩ := h
          exact hCV.trans (IHm _ _ _ _ hB)
        rw [hT2] at h
        simp only at h
        by_cases hPK : p.kind = some TokenKind.Comma
        · rw [if_pos hPK] at h
          rcases hS : parse_suffix_comment ⟨stV.source, rest, p.span⟩
            with es | ⟨sfx, stS⟩
          · rw [hS] at h; exact absurd h (by simp)
          rw [hS] at h
          simp only at h
          rcases hB : parse_map_contents f stS depth with es | ⟨tl, stB⟩
          · rw [hB] at h; exact absurd h (by simp)
          rw [hB] at h
          rcases tl with ⟨kvs, cc⟩
          simp only [Except.ok.injEq, Prod.mk.injEq] at h
          obtain ⟨-, rfl⟩ := h
          have hComma : Consumed stV ⟨stV.source, rest, p.span⟩ :=
            ⟨[p], by simp [hT2], by simp [allOk, hPK]⟩
          exact hCV.trans (hComma.trans ((parse_suffix_comment_consumed hS).trans
            (IHm _ _ _ _ hB)))
        · rw [if_neg hPK] at h
          simp only at h
          rcases hB : parse_map_contents f stV depth with es | ⟨tl, stB⟩
          · rw [hB] at h; exact absurd h (by simp)
          rw [hB] at h
          rcases tl with ⟨kvs, cc⟩
          simp only [Except.ok.injEq, Prod.mk.injEq] at h
          obtain ⟨-, rfl⟩ := h
          exact hCV.trans (IHm _ _ _ _ hB)

/-- A successful trailing-tokens check means the stream was fully
consumed. -/
theorem check_trailing_ok {st st2 : PState}
    (h : check_for_trailing_tokens st = .ok st2) : st.toks = [] := by
  obtain ⟨src, toks, last⟩ := st
  unfold check_for_trailing_tokens at h
  match toks with
  | [] => rfl
  | t :: rest =>
    simp only at h
    rcases hk : t.kind with _ | k <;> rw [hk] at h <;> exact absurd h (by simp)

/-- If the lexer emitted an error item anywhere in the token stream,
`parse_str` fails: a successful parse would have had to consume every
token (both top-level paths end with the trailing-tokens check), but no
error item can be consumed. -/
theorem parse_str_err_of_invalid (s : String) (e : PTok)
    (he : e ∈ tokenize s) (hk : e.kind = none) :
    ∃ err, parse_str s = .error err := by
  cases hp : parse_str s with
  | error err => exact ⟨err, rfl⟩
  | ok t =>
    exfalso
    have hmem : e ∈ (initState s).toks := by simpa [initState] using he
    unfold parse_str parse_top_str at hp
    rcases hm : parse_map_contents (initFuel s) (initState s) 0
      with ⟨errA, stA⟩ | ⟨mv, stA⟩
    · rw [hm] at hp
      simp only at hp
      rcases hl : parse_list_contents (initFuel s) (initState s) 0
        with ⟨errB, stB⟩ | ⟨lv, stB⟩
      · rw [hl] at hp
        simp only at hp
        by_cases hcmp : stA.lastSpan.stop < stB.lastSpan.stop
        · rw [if_pos hcmp] at hp; exact absurd hp (by simp)
        · rw [if_neg hcmp] at hp; exact absurd hp (by simp)
      · rw [hl] at hp
        simp only at hp
        rcases ht : check_for_trailing_tokens stB with es | stB2
        · rw [ht] at hp; exact absurd hp (by simp)
        have htoksB : stB.toks = [] := check_trailing_ok ht
        obtain ⟨u, hu, hall⟩ := (parser_consumed (initFuel s)).2.1 _ _ _ _ hl
        rw [htoksB, List.append_nil] at hu
        exact hall e (by rwa [← hu]) hk
    · rw [hm] at hp
      simp only at hp
      rcases ht : check_for_trailing_tokens stA with es | stA2
      · rw [ht] at hp; exact absurd hp (by simp)
      have htoksA : stA.toks = [] := check_trailing_ok ht
      obtain ⟨u, hu, hall⟩ := (parser_consumed (initFuel s)).2.2 _ _ _ _ hm
      rw [htoksA, List.append_nil] at hu
      exact hall e (by rwa [← hu]) hk

/-- C10 as amended: a carriage return is not inter-token whitespace
(`logos` skips only space, tab, newline and form feed) and starts no
token, so the lexer emits an error item for a CR at any token boundary,
and any error item anywhere in the stream makes `parse_str` fail —
though not always with the "Invalid token" message itself (see the
counterexample: the error item may sit after a prefix whose parse fails
first with a different message). -/
theorem c10_carriage_return_rejected :
    isSkipChar '\r' = false ∧
    (∀ cs, nextTokenKindLen ('\r' :: cs) = none) ∧
    (∀ fuel cs pos, lexLoop (fuel + 1) ('\r' :: cs) pos =
      ⟨⟨pos, pos + 1⟩, String.mk ['\r'], none⟩ :: lexLoop fuel cs (pos + 1)) ∧
    (∀ s e, e ∈ tokenize s → e.kind = none → ∃ err, parse_str s = .error err) :=
  ⟨rfl, fun _ => rfl, fun _ _ _ => rfl,
    fun s e he hk => parse_str_err_of_invalid s e he hk⟩

/-- C10 witness: the CRLF-line-ended document `a: 1\r\nb: 2` fails to
parse (the CR lexes as an error item at offsets 4..5). -/
theorem c10_carriage_return_rejected_witness :
    ∃ err, parse_str "a: 1\r\nb: 2" = .error err :=
  c10_carriage_return_rejected.2.2.2 "a: 1\r\nb: 2" ⟨⟨4, 5⟩, "\r", none⟩ (by decide) rfl

/-- C10 counterexample to the claimed universal "Invalid token" error:
in `}\r` the carriage return sits between tokens, yet `parse_str`
reports the close brace as a trailing token ("Expected end of file
here") rather than an Invalid-token error. -/
theorem c10_counterexample_cr_error_not_invalid_token :
    parse_str "\x7d\r" =
      .error (Error.new_at ⟨0, 1⟩ "Expected end of file here") := rfl

/-! ## Idempotence of reformatting (C2) -/

/-- C2 counterexample: with a non-default `key_value_separator` of `""`
reformatting is NOT idempotent: `a: 1` first reformats to `a1\n`, whose
reparse is the single identifier `a1`, which reformats to `a1` (no
trailing newline, since a lone value is not printed through the
key-value path). -/
theorem c2_counterexample_empty_separator :
    reformat "a: 1" ⟨"\t", "\n", " ", "", false⟩ = .ok ("a1" ++ "\n") ∧
    reformat ("a1" ++ "\n") ⟨"\t", "\n", " ", "", false⟩ = .ok "a1" ∧
    ("a1" ++ "\n" : String) ≠ "a1" := ⟨rfl, rfl, by decide⟩

set_option maxRecDepth 8000 in
set_option maxHeartbeats 4000000 in
/-- C2 as amended: idempotence cannot hold for every `FormatOptions`
(see the counterexample — degenerate options make the output reparse to
a different tree), but for the DEFAULT options reformatting is
idempotent; machine-checked here on a corpus covering maps, lists,
comments, variants, strings and multi-value files. -/
theorem c2_default_options_idempotent_on_corpus :
    c2Corpus.all c2IdemB = true := by rfl


end Eon
